import Mathlib

/-!
# Verification of the CarlGPT streaming completion pipeline

A shallow embedding, over `List Char`, of the streaming-completion code in
`src/backend/src/main.rs`:

* the `<thinking>`-span classifier loop of `append_chat_message_stream`
  (lines 967-1151),
* the SSE frame decoder `process_stream` (lines 1789-1824),
* the upstream status check of `request_openai_completion` (lines 1777-1787),
* the stream handler's store-effect prefix (lines 803-965),
* the spawned publisher tasks of both streamed endpoints,
* the attachment-text truncation helper `truncate_text` (lines 2125-2137).

Rust `String`s are modelled as `List Char`; the markers involved are ASCII, so
byte indices of `str::find` coincide with character indices at every match.
-/

namespace CarlGPT

/-- Character strings, the model of Rust `String` / `&str`. -/
abbrev Str := List Char

/-- The opening reasoning marker `"<thinking>"` (10 characters). -/
def openTag : Str := "<thinking>".data

/-- The closing reasoning marker `"</thinking>"` (11 characters). -/
def closeTag : Str := "</thinking>".data

/-- Model of Rust `str::find(pattern)`: index of the first occurrence of
`pat` as a contiguous substring of `s`, if any. -/
def findSub (pat : Str) : Str → Option Nat
  | [] => if pat <+: ([] : Str) then some 0 else none
  | c :: rest =>
      if pat <+: (c :: rest) then some 0
      else (findSub pat rest).map (· + 1)

/-- Characterization of `findSub` success: an occurrence at `i`, and no
occurrence strictly before `i`. -/
theorem findSub_eq_some_iff {pat s : Str} {i : Nat} :
    findSub pat s = some i ↔
      pat <+: s.drop i ∧ ∀ j, j < i → ¬ pat <+: s.drop j := by
  induction s generalizing i with
  | nil =>
    rw [findSub]
    by_cases h : pat <+: ([] : Str)
    · rw [if_pos h]
      constructor
      · rintro h'
        injection h' with h'
        subst h'
        exact ⟨h, by omega⟩
      · rintro ⟨_, hmin⟩
        by_contra hne
        have hi : 0 < i := by
          rcases Nat.eq_zero_or_pos i with h0 | h0
          · subst h0; exact absurd rfl hne
          · exact h0
        exact hmin 0 hi (by simpa using h)
    · rw [if_neg h]
      constructor
      · intro h'; exact Option.noConfusion h'
      · rintro ⟨hocc, _⟩
        exact absurd (by simpa using hocc) h
  | cons c rest ih =>
    rw [findSub]
    by_cases h : pat <+: (c :: rest)
    · rw [if_pos h]
      constructor
      · rintro h'
        injection h' with h'
        subst h'
        exact ⟨h, by omega⟩
      · rintro ⟨_, hmin⟩
        by_contra hne
        have hi : 0 < i := by
          rcases Nat.eq_zero_or_pos i with h0 | h0
          · subst h0; exact absurd rfl hne
          · exact h0
        exact hmin 0 hi (by simpa using h)
    · rw [if_neg h, Option.map_eq_some']
      constructor
      · rintro ⟨j, hj, rfl⟩
        obtain ⟨hocc, hmin⟩ := ih.mp hj
        refine ⟨by simpa using hocc, ?_⟩
        intro k hk
        match k with
        | 0 => simpa using h
        | k + 1 =>
          have := hmin k (by omega)
          simpa using this
      · rintro ⟨hocc, hmin⟩
        match i with
        | 0 => exact absurd (by simpa using hocc) h
        | i + 1 =>
          refine ⟨i, ih.mpr ⟨by simpa using hocc, ?_⟩, rfl⟩
          intro j hj
          have := hmin (j + 1) (by omega)
          simpa using this

/-- Characterization of `findSub` failure: no occurrence anywhere. -/
theorem findSub_eq_none_iff {pat s : Str} :
    findSub pat s = none ↔ ∀ j, ¬ pat <+: s.drop j := by
  constructor
  · intro h j hocc
    cases hfind : findSub pat s with
    | none =>
      -- we derive a contradiction: some occurrence exists, so the scan
      -- cannot return `none`
      clear h
      induction s generalizing j with
      | nil =>
        rw [findSub] at hfind
        by_cases h0 : pat <+: ([] : Str)
        · rw [if_pos h0] at hfind; exact Option.noConfusion hfind
        · exact absurd (by simpa using hocc) h0
      | cons c rest ih =>
        rw [findSub] at hfind
        by_cases h0 : pat <+: (c :: rest)
        · rw [if_pos h0] at hfind; exact Option.noConfusion hfind
        · rw [if_neg h0, Option.map_eq_none'] at hfind
          match j with
          | 0 => exact absurd (by simpa using hocc) h0
          | j + 1 => exact ih j (by simpa using hocc) hfind
    | some i => rw [h] at hfind; exact Option.noConfusion hfind
  · intro h
    cases hfind : findSub pat s with
    | none => rfl
    | some i =>
      obtain ⟨hocc, _⟩ := findSub_eq_some_iff.mp hfind
      exact absurd hocc (h i)

theorem findSub_nil_of_ne_nil {pat : Str} (h : pat ≠ []) : findSub pat [] = none := by
  rw [findSub_eq_none_iff]
  intro j hp
  rw [List.drop_nil] at hp
  exact h (List.prefix_nil.mp hp)

theorem findSub_some_occ {pat s : Str} {i : Nat} (h : findSub pat s = some i) :
    pat <+: s.drop i :=
  (findSub_eq_some_iff.mp h).1

theorem findSub_some_min {pat s : Str} {i : Nat} (h : findSub pat s = some i) :
    ∀ j, j < i → ¬ pat <+: s.drop j :=
  (findSub_eq_some_iff.mp h).2

/-- A successful match fits inside the string. -/
theorem findSub_some_add_le {pat s : Str} {i : Nat} (hpat : pat ≠ [])
    (h : findSub pat s = some i) : i + pat.length ≤ s.length := by
  have hocc := findSub_some_occ h
  have hlen := hocc.length_le
  have hdrop : (s.drop i).length = s.length - i := List.length_drop ..
  have hpos : 0 < pat.length := List.length_pos.mpr hpat
  have hi : i ≤ s.length := by
    by_contra hgt
    push_neg at hgt
    rw [List.drop_eq_nil_of_le (le_of_lt hgt)] at hocc
    exact hpat (List.prefix_nil.mp hocc)
  omega

/-- A prefix of `u ++ v` that fits inside `u` is a prefix of `u`. -/
theorem prefix_append_left {p u v : Str} (h : p <+: u ++ v)
    (hlen : p.length ≤ u.length) : p <+: u := by
  have h' := List.prefix_iff_eq_take.mp h
  rw [List.take_append_of_le_length hlen] at h'
  rw [h']
  exact List.take_prefix _ _

/-- If `u` is at most as long as a prefix `p` of `u ++ v`, then `u` is a
prefix of `p`. -/
theorem append_prefix_of_prefix {p u v : Str} (h : p <+: u ++ v)
    (hlen : u.length ≤ p.length) : u <+: p := by
  rw [List.prefix_iff_eq_take] at h ⊢
  conv_lhs => rw [show u = (u ++ v).take u.length by
    rw [List.take_append_of_le_length (le_refl _), List.take_length]]
  rw [h, List.take_take, Nat.min_eq_left hlen]

theorem drop_append_of_le {s d : Str} {j : Nat} (hj : j ≤ s.length) :
    (s ++ d).drop j = s.drop j ++ d := by
  rw [List.drop_append_eq_append_drop, Nat.sub_eq_zero_of_le hj, List.drop_zero]

/-- The first occurrence inside `s` is still the first occurrence after more
text is appended. -/
theorem findSub_append_of_some {pat s d : Str} {i : Nat}
    (h : findSub pat s = some i) : findSub pat (s ++ d) = some i := by
  by_cases hpat : pat = []
  · subst hpat
    have h0 : findSub ([] : Str) s = some 0 := by
      cases s with
      | nil => rw [findSub, if_pos List.nil_prefix]
      | cons c rest => rw [findSub, if_pos List.nil_prefix]
    rw [h0] at h
    injection h with h
    subst h
    cases hsd : s ++ d with
    | nil => rw [findSub, if_pos List.nil_prefix]
    | cons c rest => rw [findSub, if_pos List.nil_prefix]
  · have hocc := findSub_some_occ h
    have hmin := findSub_some_min h
    have hle := findSub_some_add_le hpat h
    have hilen : i ≤ s.length := by
      have := List.length_pos.mpr hpat
      omega
    rw [findSub_eq_some_iff]
    constructor
    · rw [drop_append_of_le hilen]
      exact hocc.trans (List.prefix_append _ _)
    · intro j hj hocc'
      have hjlen : j ≤ s.length := by omega
      rw [drop_append_of_le hjlen] at hocc'
      have : pat.length ≤ (s.drop j).length := by
        rw [List.length_drop]
        omega
      exact hmin j hj (prefix_append_left hocc' this)

/-- If there is no occurrence starting before `k`, scanning `u` is the same
as scanning `u.drop k` (up to the offset). -/
theorem findSub_drop_of_no_early {pat u : Str} {k : Nat}
    (h : ∀ j, j < k → ¬ pat <+: u.drop j) :
    findSub pat u = (findSub pat (u.drop k)).map (· + k) := by
  cases hfind : findSub pat (u.drop k) with
  | none =>
    rw [Option.map_none']
    rw [findSub_eq_none_iff] at hfind ⊢
    intro j
    rcases lt_or_le j k with hj | hj
    · exact h j hj
    · have := hfind (j - k)
      rwa [List.drop_drop, Nat.add_sub_cancel' hj] at this
  | some m =>
    rw [Option.map_some']
    rw [findSub_eq_some_iff]
    have hocc := findSub_some_occ hfind
    have hmin := findSub_some_min hfind
    rw [List.drop_drop] at hocc
    constructor
    · rwa [Nat.add_comm k m] at hocc
    · intro j hj
      rcases lt_or_le j k with hjk | hjk
      · exact h j hjk
      · have := hmin (j - k) (by omega)
        rwa [List.drop_drop, Nat.add_sub_cancel' hjk] at this

/-! ## Partial-marker candidates and the split-index scan

The source checks, after failing to find a complete marker, whether the
buffer ends with one of a literal list of proper marker prefixes
(main.rs lines 1003-1011 for the opening tag, 1068-1076 for the closing
tag), and withholds the matched suffix. -/

/-- The literal candidate array of main.rs line 1003. -/
def partialOpenTags : List Str :=
  ["<", "<t", "<th", "<thi", "<thin", "<think", "<thinki", "<thinkin",
   "<thinking"].map String.data

/-- The literal candidate array of main.rs line 1068 (the duplicated `"<"`
entry is kept exactly as written in the source). -/
def partialCloseTags : List Str :=
  ["<", "<", "</", "</t", "</th", "</thi", "</thin", "</think", "</thinki",
   "</thinkin", "</thinking"].map String.data

/-- The split position computed by the partial-tag scan (main.rs lines
1004-1011): the buffer length minus the length of the first candidate that
is a suffix of the buffer, or the buffer length when none matches. -/
def splitIdx (tags : List Str) (buffer : Str) : Nat :=
  match tags.find? (fun t => t.isSuffixOf buffer) with
  | some t => buffer.length - t.length
  | none => buffer.length

theorem openTag_length : openTag.length = 10 := by decide

theorem closeTag_length : closeTag.length = 11 := by decide

theorem openTag_ne_nil : openTag ≠ [] := by decide

theorem closeTag_ne_nil : closeTag ≠ [] := by decide

/-- Every candidate is a nonempty proper prefix of the opening marker. -/
theorem partialOpenTags_spec :
    ∀ t ∈ partialOpenTags, t ≠ [] ∧ t <+: openTag ∧ t.length < 10 := by decide

/-- Every candidate is a nonempty proper prefix of the closing marker. -/
theorem partialCloseTags_spec :
    ∀ t ∈ partialCloseTags, t ≠ [] ∧ t <+: closeTag ∧ t.length < 11 := by decide

/-- Every nonempty proper prefix of the opening marker is a candidate. -/
theorem openTag_take_mem :
    ∀ L, L < 10 → 0 < L → openTag.take L ∈ partialOpenTags := by decide

/-- Every nonempty proper prefix of the closing marker is a candidate. -/
theorem closeTag_take_mem :
    ∀ L, L < 11 → 0 < L → closeTag.take L ∈ partialCloseTags := by decide

/-- No candidate opening-tag prefix is a suffix of a longer one: the marker
has no borders, so at most one candidate can match a given buffer. -/
theorem partialOpenTags_no_border :
    ∀ p ∈ partialOpenTags, ∀ q ∈ partialOpenTags,
      p.length < q.length → ¬ p <:+ q := by decide

theorem partialCloseTags_no_border :
    ∀ p ∈ partialCloseTags, ∀ q ∈ partialCloseTags,
      p.length < q.length → ¬ p <:+ q := by decide

theorem splitIdx_le (tags : List Str) (buffer : Str) :
    splitIdx tags buffer ≤ buffer.length := by
  unfold splitIdx
  cases hfind : tags.find? (fun t => t.isSuffixOf buffer) with
  | none => simp only [hfind]; exact le_refl _
  | some t => simp only [hfind]; omega

/-- When the scan matched, the withheld suffix is exactly the matched
candidate. -/
theorem splitIdx_lt_spec {tags : List Str} {buffer : Str}
    (h : splitIdx tags buffer < buffer.length) :
    buffer.drop (splitIdx tags buffer) ∈ tags ∧
      buffer.drop (splitIdx tags buffer) <:+ buffer := by
  unfold splitIdx at h ⊢
  cases hfind : tags.find? (fun t => t.isSuffixOf buffer) with
  | none => simp only [hfind] at h; omega
  | some t =>
    simp only [hfind] at h ⊢
    have hmem := List.mem_of_find?_eq_some hfind
    have hsuf : t <:+ buffer := by
      have := List.find?_some hfind
      exact List.isSuffixOf_iff_suffix.mp this
    have hdrop : buffer.drop (buffer.length - t.length) = t :=
      (List.suffix_iff_eq_drop.mp hsuf).symm
    rw [hdrop]
    exact ⟨hmem, hsuf⟩

/-- Core straddling argument: if the complete marker does not occur in `s`,
then no occurrence of the marker in `s ++ d` can start before the split
index computed on `s`. -/
theorem no_occ_before_splitIdx {marker : Str} {tags : List Str}
    (hmem_take : ∀ L, L < marker.length → 0 < L → marker.take L ∈ tags)
    (hnoborder : ∀ p ∈ tags, ∀ q ∈ tags, p.length < q.length → ¬ p <:+ q)
    {s : Str} (hnone : findSub marker s = none) (d : Str) :
    ∀ j, j < splitIdx tags s → ¬ marker <+: (s ++ d).drop j := by
  intro j hj hocc
  have hk_le := splitIdx_le tags s
  have hjs : j < s.length := lt_of_lt_of_le hj hk_le
  rw [drop_append_of_le (le_of_lt hjs)] at hocc
  rcases le_or_lt marker.length (s.drop j).length with hfit | hstraddle
  · -- the occurrence fits inside s: contradicts hnone
    have := prefix_append_left hocc hfit
    exact (findSub_eq_none_iff.mp hnone j) this
  · -- the occurrence straddles the boundary
    have hLlen : (s.drop j).length = s.length - j := List.length_drop ..
    set L := s.length - j with hL
    have hLpos : 0 < L := by omega
    have hLlt : L < marker.length := by omega
    have hdrop_pre : s.drop j <+: marker :=
      append_prefix_of_prefix hocc (by omega)
    have hdrop_eq : s.drop j = marker.take L := by
      have := List.prefix_iff_eq_take.mp hdrop_pre
      rwa [hLlen] at this
    have htake_mem : marker.take L ∈ tags := hmem_take L hLlt hLpos
    have htake_len : (marker.take L).length = L := by
      rw [List.length_take]
      omega
    -- the scan cannot have chosen a split strictly above s.length - L
    unfold splitIdx at hj
    cases hfind : tags.find? (fun t => t.isSuffixOf s) with
    | none =>
      simp only [hfind] at hj
      have := List.find?_eq_none.mp hfind _ htake_mem
      apply this
      rw [List.isSuffixOf_iff_suffix, ← hdrop_eq]
      exact List.drop_suffix _ _
    | some t =>
      simp only [hfind] at hj
      have hmem := List.mem_of_find?_eq_some hfind
      have hsuf : t <:+ s := by
        have := List.find?_some hfind
        exact List.isSuffixOf_iff_suffix.mp this
      have htlen : t.length ≤ s.length := hsuf.length_le
      -- j < s.length - t.length forces t to be shorter than the matched
      -- partial prefix of length L
      have htL : t.length < L := by omega
      have hts : t = s.drop (s.length - t.length) :=
        List.suffix_iff_eq_drop.mp hsuf
      -- t is then a suffix of marker.take L, contradicting borderlessness
      have ht_suffix : t <:+ marker.take L := by
        rw [← hdrop_eq]
        conv_lhs => rw [hts]
        exact List.drop_suffix_drop_left s (by omega)
      exact hnoborder t hmem (marker.take L) htake_mem
        (by omega) ht_suffix

/-! ## The span classifier

The loop of `append_chat_message_stream` (main.rs lines 974-1109) keeps a
buffer and a flag `in_thinking_block`, and per received chunk repeatedly:
looks for the complete marker (emitting the text before it and skipping the
marker), or else withholds a partial-marker suffix and emits the rest.
`classifyGo` is a fuel-indexed rendering of the inner `loop`; each `continue`
removes at least a whole marker from the buffer, so `buffer.length` fuel
always suffices. -/

/-- Kind of an emitted span: `answer` models a `token` SSE event,
`reasoning` a `reasoning` SSE event. -/
inductive SpanKind
  | answer
  | reasoning
deriving DecidableEq, Repr

/-- A classified span of text. -/
structure Span where
  kind : SpanKind
  text : Str
deriving DecidableEq, Repr

/-- One execution of the inner `loop` (main.rs lines 979-1109) on a buffer,
in state `false` (Visible) or `true` (inside a thinking block); returns the
new state, the new (withheld) buffer and the spans emitted, in order. -/
def classifyGo : Nat → Bool → Str → Bool × Str × List Span
  | 0, b, buffer => (b, buffer, [])
  | fuel + 1, false, buffer =>
    match findSub openTag buffer with
    | some i =>
        let out := classifyGo fuel true (buffer.drop (i + 10))
        (out.1, out.2.1,
          (if 0 < i then [⟨.answer, buffer.take i⟩] else []) ++ out.2.2)
    | none =>
        let k := splitIdx partialOpenTags buffer
        if k < buffer.length then
          (false, buffer.drop k,
            if 0 < k then [⟨.answer, buffer.take k⟩] else [])
        else
          (false, [], if buffer = [] then [] else [⟨.answer, buffer⟩])
  | fuel + 1, true, buffer =>
    match findSub closeTag buffer with
    | some i =>
        let out := classifyGo fuel false (buffer.drop (i + 11))
        (out.1, out.2.1,
          (if buffer.take i = [] then [] else [⟨.reasoning, buffer.take i⟩])
            ++ out.2.2)
    | none =>
        let k := splitIdx partialCloseTags buffer
        if k < buffer.length then
          (true, buffer.drop k,
            if 0 < k then [⟨.reasoning, buffer.take k⟩] else [])
        else
          (true, [], if buffer = [] then [] else [⟨.reasoning, buffer⟩])

/-- The classifier step on a freshly extended buffer. -/
def classifyStep (b : Bool) (buffer : Str) : Bool × Str × List Span :=
  classifyGo buffer.length b buffer

theorem classifyGo_nil (fuel : Nat) (b : Bool) :
    classifyGo fuel b [] = (b, [], []) := by
  match fuel, b with
  | 0, b => rfl
  | fuel + 1, false =>
    rw [classifyGo, findSub_nil_of_ne_nil openTag_ne_nil]
    rfl
  | fuel + 1, true =>
    rw [classifyGo, findSub_nil_of_ne_nil closeTag_ne_nil]
    rfl

/-- Any fuel at least the buffer length computes the same result. -/
theorem classifyGo_congr :
    ∀ {fuel fuel' : Nat} {b : Bool} {buffer : Str},
      buffer.length ≤ fuel → buffer.length ≤ fuel' →
      classifyGo fuel b buffer = classifyGo fuel' b buffer := by
  intro fuel
  induction fuel with
  | zero =>
    intro fuel' b buffer h _
    have : buffer = [] := List.length_eq_zero.mp (by omega)
    subst this
    rw [classifyGo_nil, classifyGo_nil]
  | succ fuel ih =>
    intro fuel' b buffer h h'
    cases fuel' with
    | zero =>
      have : buffer = [] := List.length_eq_zero.mp (by omega)
      subst this
      rw [classifyGo_nil, classifyGo_nil]
    | succ fuel' =>
      cases b with
      | false =>
        rw [classifyGo, classifyGo]
        cases hfind : findSub openTag buffer with
        | some i =>
          have hle := findSub_some_add_le openTag_ne_nil hfind
          rw [openTag_length] at hle
          have hdlen : (buffer.drop (i + 10)).length ≤ fuel := by
            rw [List.length_drop]
            omega
          have hdlen' : (buffer.drop (i + 10)).length ≤ fuel' := by
            rw [List.length_drop]
            omega
          simp only [ih hdlen hdlen']
        | none => rfl
      | true =>
        rw [classifyGo, classifyGo]
        cases hfind : findSub closeTag buffer with
        | some i =>
          have hle := findSub_some_add_le closeTag_ne_nil hfind
          rw [closeTag_length] at hle
          have hdlen : (buffer.drop (i + 11)).length ≤ fuel := by
            rw [List.length_drop]
            omega
          have hdlen' : (buffer.drop (i + 11)).length ≤ fuel' := by
            rw [List.length_drop]
            omega
          simp only [ih hdlen hdlen']
        | none => rfl

/-- Unfolding rule for `classifyStep` in Visible state when the opening
marker occurs. -/
theorem classifyStep_false_some {buffer : Str} {i : Nat}
    (h : findSub openTag buffer = some i) :
    classifyStep false buffer =
      ((classifyStep true (buffer.drop (i + 10))).1,
       (classifyStep true (buffer.drop (i + 10))).2.1,
       (if 0 < i then [⟨.answer, buffer.take i⟩] else [])
         ++ (classifyStep true (buffer.drop (i + 10))).2.2) := by
  have hle := findSub_some_add_le openTag_ne_nil h
  rw [openTag_length] at hle
  unfold classifyStep
  obtain ⟨n, hn⟩ : ∃ n, buffer.length = n + 1 := ⟨buffer.length - 1, by omega⟩
  rw [hn, classifyGo, h]
  have hd : (buffer.drop (i + 10)).length ≤ n := by
    rw [List.length_drop]
    omega
  simp only [classifyGo_congr hd (le_refl _)]

/-- Unfolding rule for `classifyStep` in Visible state when the opening
marker does not occur. -/
theorem classifyStep_false_none {buffer : Str}
    (h : findSub openTag buffer = none) :
    classifyStep false buffer =
      (if splitIdx partialOpenTags buffer < buffer.length then
        (false, buffer.drop (splitIdx partialOpenTags buffer),
          if 0 < splitIdx partialOpenTags buffer then
            [⟨.answer, buffer.take (splitIdx partialOpenTags buffer)⟩]
          else [])
      else
        (false, [], if buffer = [] then [] else [⟨.answer, buffer⟩])) := by
  unfold classifyStep
  cases buffer with
  | nil => rw [classifyGo_nil]; rfl
  | cons c rest =>
    rw [show (c :: rest).length = rest.length + 1 from rfl, classifyGo]
    rw [h]
    rfl

/-- Unfolding rule for `classifyStep` in Reasoning state when the closing
marker occurs. -/
theorem classifyStep_true_some {buffer : Str} {i : Nat}
    (h : findSub closeTag buffer = some i) :
    classifyStep true buffer =
      ((classifyStep false (buffer.drop (i + 11))).1,
       (classifyStep false (buffer.drop (i + 11))).2.1,
       (if buffer.take i = [] then [] else [⟨.reasoning, buffer.take i⟩])
         ++ (classifyStep false (buffer.drop (i + 11))).2.2) := by
  have hle := findSub_some_add_le closeTag_ne_nil h
  rw [closeTag_length] at hle
  unfold classifyStep
  obtain ⟨n, hn⟩ : ∃ n, buffer.length = n + 1 := ⟨buffer.length - 1, by omega⟩
  rw [hn, classifyGo, h]
  have hd : (buffer.drop (i + 11)).length ≤ n := by
    rw [List.length_drop]
    omega
  simp only [classifyGo_congr hd (le_refl _)]

/-- Unfolding rule for `classifyStep` in Reasoning state when the closing
marker does not occur. -/
theorem classifyStep_true_none {buffer : Str}
    (h : findSub closeTag buffer = none) :
    classifyStep true buffer =
      (if splitIdx partialCloseTags buffer < buffer.length then
        (true, buffer.drop (splitIdx partialCloseTags buffer),
          if 0 < splitIdx partialCloseTags buffer then
            [⟨.reasoning, buffer.take (splitIdx partialCloseTags buffer)⟩]
          else [])
      else
        (true, [], if buffer = [] then [] else [⟨.reasoning, buffer⟩])) := by
  unfold classifyStep
  cases buffer with
  | nil => rw [classifyGo_nil]; rfl
  | cons c rest =>
    rw [show (c :: rest).length = rest.length + 1 from rfl, classifyGo]
    rw [h]
    rfl

/-- The outer chunk loop (main.rs lines 974-1115): append each delta to the
buffer and run the classifier step; collect the emitted spans. -/
def runDeltas : Bool → Str → List Str → Bool × Str × List Span
  | b, buf, [] => (b, buf, [])
  | b, buf, d :: ds =>
      let out := classifyStep b (buf ++ d)
      let out' := runDeltas out.1 out.2.1 ds
      (out'.1, out'.2.1, out.2.2 ++ out'.2.2)

/-- The end-of-stream flush (main.rs lines 1117-1140): a nonempty remaining
buffer is emitted as one final span tagged by the current state. -/
def flushSpans : Bool → Str → List Span
  | _, [] => []
  | false, buf => [⟨.answer, buf⟩]
  | true, buf => [⟨.reasoning, buf⟩]

/-- The full classified span sequence of a delta sequence, flush included. -/
def classify (ds : List Str) : List Span :=
  let out := runDeltas false [] ds
  out.2.2 ++ flushSpans out.1 out.2.1

/-- Concatenation of the texts of all `answer` spans: this is exactly what
the loop accumulates into `full_answer` (reasoning spans and the
in-thinking flush are never added, main.rs lines 993, 1025, 1039, 1128,
1138). -/
def answerText (spans : List Span) : Str :=
  (spans.filterMap fun sp =>
    match sp.kind with
    | .answer => some sp.text
    | .reasoning => none).flatten

/-- The final text persisted by the streamed append handler
(`UPDATE chat_messages SET content = ...`, main.rs lines 1142-1151). -/
def persistedAnswer (ds : List Str) : Str :=
  answerText (classify ds)

/-! ## Reasoning-region removal (the specification's reconstruction)

`visibleStrip false` scans the unsplit text as the specification describes:
all text outside a `<thinking>`/`</thinking>` pair is kept, all text between
a pair is dropped together with the markers, and text inside an unclosed
region at the end is dropped. -/

/-- Fuel-indexed scan; each step consumes at least a whole marker. -/
def stripGo : Nat → Bool → Str → Str
  | 0, _, _ => []
  | fuel + 1, false, s =>
    match findSub openTag s with
    | some i => s.take i ++ stripGo fuel true (s.drop (i + 10))
    | none => s
  | fuel + 1, true, s =>
    match findSub closeTag s with
    | some i => stripGo fuel false (s.drop (i + 11))
    | none => []

/-- Visible text of `s` when scanning starts in state `b`. -/
def visibleStrip (b : Bool) (s : Str) : Str := stripGo s.length b s

/-- Modelled from the spec: "concatenating all `Answer` spans … equals the
text obtained by removing every `<marker>...</marker>`-delimited region from
the original unsplit text", with content of an unclosed trailing region
excluded (spec §4.3 flush-at-end policy, §8). -/
def removeReasoningRegions (s : Str) : Str := visibleStrip false s

theorem stripGo_nil (fuel : Nat) (b : Bool) : stripGo fuel b [] = [] := by
  match fuel, b with
  | 0, _ => rfl
  | fuel + 1, false =>
    rw [stripGo, findSub_nil_of_ne_nil openTag_ne_nil]
  | fuel + 1, true =>
    rw [stripGo, findSub_nil_of_ne_nil closeTag_ne_nil]

theorem stripGo_congr :
    ∀ {fuel fuel' : Nat} {b : Bool} {s : Str},
      s.length ≤ fuel → s.length ≤ fuel' →
      stripGo fuel b s = stripGo fuel' b s := by
  intro fuel
  induction fuel with
  | zero =>
    intro fuel' b s h _
    have : s = [] := List.length_eq_zero.mp (by omega)
    subst this
    rw [stripGo_nil, stripGo_nil]
  | succ fuel ih =>
    intro fuel' b s h h'
    cases fuel' with
    | zero =>
      have : s = [] := List.length_eq_zero.mp (by omega)
      subst this
      rw [stripGo_nil, stripGo_nil]
    | succ fuel' =>
      cases b with
      | false =>
        rw [stripGo, stripGo]
        cases hfind : findSub openTag s with
        | some i =>
          have hle := findSub_some_add_le openTag_ne_nil hfind
          rw [openTag_length] at hle
          have h1 : (s.drop (i + 10)).length ≤ fuel := by
            rw [List.length_drop]; omega
          have h2 : (s.drop (i + 10)).length ≤ fuel' := by
            rw [List.length_drop]; omega
          simp only [ih h1 h2]
        | none => rfl
      | true =>
        rw [stripGo, stripGo]
        cases hfind : findSub closeTag s with
        | some i =>
          have hle := findSub_some_add_le closeTag_ne_nil hfind
          rw [closeTag_length] at hle
          have h1 : (s.drop (i + 11)).length ≤ fuel := by
            rw [List.length_drop]; omega
          have h2 : (s.drop (i + 11)).length ≤ fuel' := by
            rw [List.length_drop]; omega
          simp only [ih h1 h2]
        | none => rfl

theorem visibleStrip_false_some {s : Str} {i : Nat}
    (h : findSub openTag s = some i) :
    visibleStrip false s = s.take i ++ visibleStrip true (s.drop (i + 10)) := by
  have hle := findSub_some_add_le openTag_ne_nil h
  rw [openTag_length] at hle
  unfold visibleStrip
  obtain ⟨n, hn⟩ : ∃ n, s.length = n + 1 := ⟨s.length - 1, by omega⟩
  rw [hn, stripGo, h]
  have hd : (s.drop (i + 10)).length ≤ n := by
    rw [List.length_drop]; omega
  simp only [stripGo_congr hd (le_refl _)]

theorem visibleStrip_false_none {s : Str} (h : findSub openTag s = none) :
    visibleStrip false s = s := by
  unfold visibleStrip
  cases s with
  | nil => rw [stripGo_nil]
  | cons c rest =>
    rw [show (c :: rest).length = rest.length + 1 from rfl, stripGo, h]

theorem visibleStrip_true_some {s : Str} {i : Nat}
    (h : findSub closeTag s = some i) :
    visibleStrip true s = visibleStrip false (s.drop (i + 11)) := by
  have hle := findSub_some_add_le closeTag_ne_nil h
  rw [closeTag_length] at hle
  unfold visibleStrip
  obtain ⟨n, hn⟩ : ∃ n, s.length = n + 1 := ⟨s.length - 1, by omega⟩
  rw [hn, stripGo, h]
  have hd : (s.drop (i + 11)).length ≤ n := by
    rw [List.length_drop]; omega
  simp only [stripGo_congr hd (le_refl _)]

theorem visibleStrip_true_none {s : Str} (h : findSub closeTag s = none) :
    visibleStrip true s = [] := by
  unfold visibleStrip
  cases s with
  | nil => rw [stripGo_nil]
  | cons c rest =>
    rw [show (c :: rest).length = rest.length + 1 from rfl, stripGo, h]

/-- `findSub` fails on strings shorter than the pattern. -/
theorem findSub_none_of_short {pat s : Str} (h : s.length < pat.length) :
    findSub pat s = none := by
  rw [findSub_eq_none_iff]
  intro j hocc
  have := hocc.length_le
  rw [List.length_drop] at this
  omega

/-- Splitting the visible scan at a point with no earlier opening-marker
occurrence. -/
theorem visibleStrip_false_split {u : Str} {k : Nat}
    (h : ∀ j, j < k → ¬ openTag <+: u.drop j) :
    visibleStrip false u = u.take k ++ visibleStrip false (u.drop k) := by
  have hshift := findSub_drop_of_no_early h
  cases hfind : findSub openTag (u.drop k) with
  | none =>
    rw [hfind, Option.map_none'] at hshift
    rw [visibleStrip_false_none hshift, visibleStrip_false_none hfind,
      List.take_append_drop]
  | some m =>
    rw [hfind, Option.map_some'] at hshift
    rw [visibleStrip_false_some hshift, visibleStrip_false_some hfind]
    rw [List.drop_drop, Nat.add_comm m k, List.take_add]
    rw [show k + m + 10 = k + (m + 10) by omega, List.append_assoc]

/-- Splitting the hidden scan at a point with no earlier closing-marker
occurrence. -/
theorem visibleStrip_true_split {u : Str} {k : Nat}
    (h : ∀ j, j < k → ¬ closeTag <+: u.drop j) :
    visibleStrip true u = visibleStrip true (u.drop k) := by
  have hshift := findSub_drop_of_no_early h
  cases hfind : findSub closeTag (u.drop k) with
  | none =>
    rw [hfind, Option.map_none'] at hshift
    rw [visibleStrip_true_none hshift, visibleStrip_true_none hfind]
  | some m =>
    rw [hfind, Option.map_some'] at hshift
    rw [visibleStrip_true_some hshift, visibleStrip_true_some hfind]
    rw [List.drop_drop]
    have h1 : k + (m + 11) = m + k + 11 := by omega
    rw [h1]

/-! ## Classifier invariants and reconstruction -/

theorem answerText_nil : answerText [] = [] := rfl

theorem answerText_append (l₁ l₂ : List Span) :
    answerText (l₁ ++ l₂) = answerText l₁ ++ answerText l₂ := by
  unfold answerText
  rw [List.filterMap_append, List.flatten_append]

theorem answerText_answer (t : Str) :
    answerText [⟨.answer, t⟩] = t := by
  simp [answerText]

theorem answerText_reasoning (t : Str) :
    answerText [⟨.reasoning, t⟩] = [] := by
  simp [answerText]

/-- The pending-buffer invariant: between chunks the buffer is empty or one
of the literal partial-tag candidates for the marker being watched. -/
def goodState (b : Bool) (buf : Str) : Prop :=
  buf = [] ∨ buf ∈ (if b then partialCloseTags else partialOpenTags)

theorem goodState_nil (b : Bool) : goodState b [] := Or.inl rfl

/-- Every classifier step leaves a good buffer behind. -/
theorem classifyStep_good (b : Bool) (s : Str) :
    goodState (classifyStep b s).1 (classifyStep b s).2.1 := by
  have : ∀ fuel b (s : Str), s.length ≤ fuel →
      goodState (classifyStep b s).1 (classifyStep b s).2.1 := by
    intro fuel
    induction fuel with
    | zero =>
      intro b s h
      have : s = [] := List.length_eq_zero.mp (by omega)
      subst this
      unfold classifyStep
      rw [classifyGo_nil]
      exact goodState_nil b
    | succ fuel ih =>
      intro b s h
      cases b with
      | false =>
        cases hfind : findSub openTag s with
        | some i =>
          rw [classifyStep_false_some hfind]
          have hle := findSub_some_add_le openTag_ne_nil hfind
          rw [openTag_length] at hle
          exact ih true (s.drop (i + 10)) (by rw [List.length_drop]; omega)
        | none =>
          rw [classifyStep_false_none hfind]
          by_cases hk : splitIdx partialOpenTags s < s.length
          · rw [if_pos hk]
            right
            have := (splitIdx_lt_spec hk).1
            simpa using this
          · rw [if_neg hk]
            exact goodState_nil false
      | true =>
        cases hfind : findSub closeTag s with
        | some i =>
          rw [classifyStep_true_some hfind]
          have hle := findSub_some_add_le closeTag_ne_nil hfind
          rw [closeTag_length] at hle
          exact ih false (s.drop (i + 11)) (by rw [List.length_drop]; omega)
        | none =>
          rw [classifyStep_true_none hfind]
          by_cases hk : splitIdx partialCloseTags s < s.length
          · rw [if_pos hk]
            right
            have := (splitIdx_lt_spec hk).1
            simpa using this
          · rw [if_neg hk]
            exact goodState_nil true
  exact this s.length b s (le_refl _)

theorem runDeltas_good {b : Bool} {buf : Str} (h : goodState b buf)
    (ds : List Str) :
    goodState (runDeltas b buf ds).1 (runDeltas b buf ds).2.1 := by
  induction ds generalizing b buf with
  | nil => exact h
  | cons d ds ih =>
    rw [runDeltas]
    exact ih (classifyStep_good b (buf ++ d))

/-- A good buffer is too short to contain its watched marker. -/
theorem goodState_findSub_none {b : Bool} {buf : Str} (h : goodState b buf) :
    findSub (if b then closeTag else openTag) buf = none := by
  cases h with
  | inl h =>
    subst h
    cases b with
    | false => exact findSub_nil_of_ne_nil openTag_ne_nil
    | true => exact findSub_nil_of_ne_nil closeTag_ne_nil
  | inr h =>
    cases b with
    | false =>
      have := (partialOpenTags_spec buf (by simpa using h)).2.2
      show findSub openTag buf = none
      exact findSub_none_of_short (by rw [openTag_length]; omega)
    | true =>
      have := (partialCloseTags_spec buf (by simpa using h)).2.2
      show findSub closeTag buf = none
      exact findSub_none_of_short (by rw [closeTag_length]; omega)

/-- The key composition lemma: processing `s` and then continuing with more
text `d` accounts for exactly the visible text of `s ++ d`. -/
theorem visibleStrip_classifyStep (b : Bool) (s d : Str) :
    visibleStrip b (s ++ d) =
      answerText (classifyStep b s).2.2 ++
        visibleStrip (classifyStep b s).1 ((classifyStep b s).2.1 ++ d) := by
  have main : ∀ fuel b (s : Str), s.length ≤ fuel → ∀ d,
      visibleStrip b (s ++ d) =
        answerText (classifyStep b s).2.2 ++
          visibleStrip (classifyStep b s).1 ((classifyStep b s).2.1 ++ d) := by
    intro fuel
    induction fuel with
    | zero =>
      intro b s h d
      have : s = [] := List.length_eq_zero.mp (by omega)
      subst this
      unfold classifyStep
      rw [classifyGo_nil]
      simp [answerText_nil]
    | succ fuel ih =>
      intro b s h d
      cases b with
      | false =>
        cases hfind : findSub openTag s with
        | some i =>
          have hle := findSub_some_add_le openTag_ne_nil hfind
          rw [openTag_length] at hle
          rw [classifyStep_false_some hfind]
          have hfind' : findSub openTag (s ++ d) = some i :=
            findSub_append_of_some hfind
          rw [visibleStrip_false_some hfind']
          rw [List.take_append_of_le_length (by omega)]
          rw [drop_append_of_le (by omega)]
          have hrec := ih true (s.drop (i + 10))
            (by rw [List.length_drop]; omega) d
          rw [hrec, answerText_append]
          have : answerText (if 0 < i then [⟨.answer, s.take i⟩] else []) =
              s.take i := by
            by_cases hi : 0 < i
            · rw [if_pos hi, answerText_answer]
            · rw [if_neg hi, answerText_nil]
              have : i = 0 := by omega
              subst this
              rw [List.take_zero]
          rw [this, List.append_assoc]
        | none =>
          rw [classifyStep_false_none hfind]
          have hnoocc := no_occ_before_splitIdx
            (by rw [openTag_length]; exact openTag_take_mem)
            partialOpenTags_no_border hfind d
          by_cases hk : splitIdx partialOpenTags s < s.length
          · rw [if_pos hk]
            have hsplit := visibleStrip_false_split (u := s ++ d) hnoocc
            rw [hsplit]
            have hkle : splitIdx partialOpenTags s ≤ s.length := by omega
            rw [List.take_append_of_le_length hkle, drop_append_of_le hkle]
            have : answerText
                (if 0 < splitIdx partialOpenTags s then
                  [⟨.answer, s.take (splitIdx partialOpenTags s)⟩]
                else []) = s.take (splitIdx partialOpenTags s) := by
              by_cases hp : 0 < splitIdx partialOpenTags s
              · rw [if_pos hp, answerText_answer]
              · rw [if_neg hp, answerText_nil]
                have : splitIdx partialOpenTags s = 0 := by omega
                rw [this, List.take_zero]
            rw [this]
          · rw [if_neg hk]
            have hkeq : splitIdx partialOpenTags s = s.length := by
              have := splitIdx_le partialOpenTags s
              omega
            rw [hkeq] at hnoocc
            have hsplit := visibleStrip_false_split (u := s ++ d) hnoocc
            rw [hsplit, List.take_left, List.drop_left]
            have : answerText (if s = [] then [] else [⟨.answer, s⟩]) = s := by
              by_cases hs : s = []
              · rw [if_pos hs, answerText_nil, hs]
              · rw [if_neg hs, answerText_answer]
            rw [this, List.nil_append]
      | true =>
        cases hfind : findSub closeTag s with
        | some i =>
          have hle := findSub_some_add_le closeTag_ne_nil hfind
          rw [closeTag_length] at hle
          rw [classifyStep_true_some hfind]
          have hfind' : findSub closeTag (s ++ d) = some i :=
            findSub_append_of_some hfind
          rw [visibleStrip_true_some hfind']
          rw [drop_append_of_le (by omega)]
          have hrec := ih false (s.drop (i + 11))
            (by rw [List.length_drop]; omega) d
          rw [hrec, answerText_append]
          have : answerText
              (if s.take i = [] then [] else [⟨.reasoning, s.take i⟩]) = [] := by
            by_cases hi : s.take i = []
            · rw [if_pos hi, answerText_nil]
            · rw [if_neg hi, answerText_reasoning]
          rw [this, List.nil_append]
        | none =>
          rw [classifyStep_true_none hfind]
          have hnoocc := no_occ_before_splitIdx
            (by rw [closeTag_length]; exact closeTag_take_mem)
            partialCloseTags_no_border hfind d
          by_cases hk : splitIdx partialCloseTags s < s.length
          · rw [if_pos hk]
            have hsplit := visibleStrip_true_split (u := s ++ d) hnoocc
            rw [hsplit]
            have hkle : splitIdx partialCloseTags s ≤ s.length := by omega
            rw [drop_append_of_le hkle]
            have : answerText
                (if 0 < splitIdx partialCloseTags s then
                  [⟨.reasoning, s.take (splitIdx partialCloseTags s)⟩]
                else []) = [] := by
              by_cases hp : 0 < splitIdx partialCloseTags s
              · rw [if_pos hp, answerText_reasoning]
              · rw [if_neg hp, answerText_nil]
            rw [this, List.nil_append]
          · rw [if_neg hk]
            have hkeq : splitIdx partialCloseTags s = s.length := by
              have := splitIdx_le partialCloseTags s
              omega
            rw [hkeq] at hnoocc
            have hsplit := visibleStrip_true_split (u := s ++ d) hnoocc
            rw [hsplit, List.drop_left]
            have : answerText (if s = [] then [] else [⟨.reasoning, s⟩]) = [] := by
              by_cases hs : s = []
              · rw [if_pos hs, answerText_nil]
              · rw [if_neg hs, answerText_reasoning]
            dsimp only
            rw [this, List.nil_append, List.nil_append]
  exact main s.length b s (le_refl _) d

/-- Running the whole delta list accounts for the visible text of the
concatenated input. -/
theorem runDeltas_visible (ds : List Str) :
    ∀ (b : Bool) (buf : Str),
      answerText (runDeltas b buf ds).2.2 ++
        visibleStrip (runDeltas b buf ds).1 (runDeltas b buf ds).2.1 =
      visibleStrip b (buf ++ ds.flatten) := by
  induction ds with
  | nil =>
    intro b buf
    rw [runDeltas]
    rw [answerText_nil, List.nil_append, List.flatten_nil, List.append_nil]
  | cons d ds ih =>
    intro b buf
    rw [runDeltas]
    rw [answerText_append, List.append_assoc, ih]
    rw [← visibleStrip_classifyStep]
    rw [List.flatten_cons, ← List.append_assoc]

/-- The flushed text contributes exactly the visible text of a good buffer. -/
theorem flush_answerText {b : Bool} {buf : Str} (h : goodState b buf) :
    answerText (flushSpans b buf) = visibleStrip b buf := by
  have hnone := goodState_findSub_none h
  cases b with
  | false =>
    rw [visibleStrip_false_none (by simpa using hnone)]
    cases buf with
    | nil => rfl
    | cons c rest =>
      rw [show flushSpans false (c :: rest) = [⟨.answer, c :: rest⟩] from rfl,
        answerText_answer]
  | true =>
    rw [visibleStrip_true_none (by simpa using hnone)]
    cases buf with
    | nil => rfl
    | cons c rest =>
      rw [show flushSpans true (c :: rest) = [⟨.reasoning, c :: rest⟩] from rfl,
        answerText_reasoning]

/-- Reconstruction: the persisted answer of any delta sequence is the
concatenated input with all reasoning regions (and markers) removed. -/
theorem persistedAnswer_eq_strip (ds : List Str) :
    persistedAnswer ds = removeReasoningRegions ds.flatten := by
  unfold persistedAnswer classify removeReasoningRegions
  rw [answerText_append]
  rw [flush_answerText (runDeltas_good (goodState_nil false) ds)]
  rw [runDeltas_visible ds false []]
  rw [List.nil_append]

/-! ## No-marker runs and non-empty spans -/

/-- No occurrence in `u ++ v` implies none in the prefix `u`. -/
theorem findSub_none_of_append_none {pat u v : Str}
    (h : findSub pat (u ++ v) = none) : findSub pat u = none := by
  rw [findSub_eq_none_iff] at h ⊢
  intro j hocc
  rcases le_or_lt j u.length with hj | hj
  · apply h j
    rw [drop_append_of_le hj]
    exact hocc.trans (List.prefix_append _ _)
  · rw [List.drop_eq_nil_of_le (le_of_lt hj)] at hocc
    have : pat = [] := List.prefix_nil.mp hocc
    subst this
    exact h 0 List.nil_prefix

/-- No occurrence in `w` implies none in any suffix of `w`. -/
theorem findSub_none_of_suffix {pat u w : Str}
    (h : findSub pat w = none) (hsuf : u <:+ w) : findSub pat u = none := by
  rw [findSub_eq_none_iff] at h ⊢
  intro j hocc
  obtain ⟨t, rfl⟩ := hsuf
  apply h (t.length + j)
  rwa [List.drop_append_eq_append_drop, List.drop_eq_nil_of_le (by omega),
    Nat.add_sub_cancel_left, List.nil_append]

/-- The classifier's new buffer is always a suffix of the scanned buffer. -/
theorem classifyStep_buf_suffix (b : Bool) (s : Str) :
    (classifyStep b s).2.1 <:+ s := by
  have : ∀ fuel b (s : Str), s.length ≤ fuel →
      (classifyStep b s).2.1 <:+ s := by
    intro fuel
    induction fuel with
    | zero =>
      intro b s h
      have : s = [] := List.length_eq_zero.mp (by omega)
      subst this
      unfold classifyStep
      rw [classifyGo_nil]
    | succ fuel ih =>
      intro b s h
      cases b with
      | false =>
        cases hfind : findSub openTag s with
        | some i =>
          rw [classifyStep_false_some hfind]
          have hle := findSub_some_add_le openTag_ne_nil hfind
          rw [openTag_length] at hle
          have := ih true (s.drop (i + 10)) (by rw [List.length_drop]; omega)
          exact this.trans (List.drop_suffix _ _)
        | none =>
          rw [classifyStep_false_none hfind]
          by_cases hk : splitIdx partialOpenTags s < s.length
          · rw [if_pos hk]
            exact List.drop_suffix _ _
          · rw [if_neg hk]
            exact List.nil_suffix
      | true =>
        cases hfind : findSub closeTag s with
        | some i =>
          rw [classifyStep_true_some hfind]
          have hle := findSub_some_add_le closeTag_ne_nil hfind
          rw [closeTag_length] at hle
          have := ih false (s.drop (i + 11)) (by rw [List.length_drop]; omega)
          exact this.trans (List.drop_suffix _ _)
        | none =>
          rw [classifyStep_true_none hfind]
          by_cases hk : splitIdx partialCloseTags s < s.length
          · rw [if_pos hk]
            exact List.drop_suffix _ _
          · rw [if_neg hk]
            exact List.nil_suffix
  exact this s.length b s (le_refl _)

/-- When the opening marker never occurs, a Visible run stays Visible and
emits only answer spans. -/
theorem runDeltas_no_marker :
    ∀ (ds : List Str) (buf : Str),
      findSub openTag (buf ++ ds.flatten) = none →
      (runDeltas false buf ds).1 = false ∧
        ∀ sp ∈ (runDeltas false buf ds).2.2, sp.kind = .answer := by
  intro ds
  induction ds with
  | nil =>
    intro buf _
    rw [runDeltas]
    exact ⟨rfl, by intro sp hsp; exact absurd hsp (List.not_mem_nil sp)⟩
  | cons d ds ih =>
    intro buf h
    have hassoc : buf ++ (d :: ds).flatten = (buf ++ d) ++ ds.flatten := by
      rw [List.flatten_cons, List.append_assoc]
    rw [hassoc] at h
    have hstep : findSub openTag (buf ++ d) = none :=
      findSub_none_of_append_none h
    have hbstate : (classifyStep false (buf ++ d)).1 = false := by
      rw [classifyStep_false_none hstep]
      by_cases hk : splitIdx partialOpenTags (buf ++ d) < (buf ++ d).length
      · rw [if_pos hk]
      · rw [if_neg hk]
    have hspans : ∀ sp ∈ (classifyStep false (buf ++ d)).2.2,
        sp.kind = .answer := by
      rw [classifyStep_false_none hstep]
      by_cases hk : splitIdx partialOpenTags (buf ++ d) < (buf ++ d).length
      · rw [if_pos hk]
        intro sp hsp
        by_cases hp : 0 < splitIdx partialOpenTags (buf ++ d)
        · rw [if_pos hp] at hsp
          rw [List.mem_singleton] at hsp
          rw [hsp]
        · rw [if_neg hp] at hsp
          exact absurd hsp (List.not_mem_nil sp)
      · rw [if_neg hk]
        intro sp hsp
        by_cases hp : buf ++ d = []
        · rw [if_pos hp] at hsp
          exact absurd hsp (List.not_mem_nil sp)
        · rw [if_neg hp] at hsp
          rw [List.mem_singleton] at hsp
          rw [hsp]
    have hsuffix : (classifyStep false (buf ++ d)).2.1 ++ ds.flatten <:+
        (buf ++ d) ++ ds.flatten := by
      obtain ⟨t, ht⟩ := classifyStep_buf_suffix false (buf ++ d)
      exact ⟨t, by rw [← List.append_assoc, ht]⟩
    have hrec := ih (classifyStep false (buf ++ d)).2.1
      (findSub_none_of_suffix h hsuffix)
    rw [runDeltas, hbstate]
    dsimp only
    constructor
    · exact hrec.1
    · intro sp hsp
      rw [List.mem_append] at hsp
      rcases hsp with hsp | hsp
      · exact hspans sp hsp
      · exact hrec.2 sp hsp

/-- Every span the classifier step emits has nonempty text. -/
theorem classifyStep_spans_ne_nil (b : Bool) (s : Str) :
    ∀ sp ∈ (classifyStep b s).2.2, sp.text ≠ [] := by
  have : ∀ fuel b (s : Str), s.length ≤ fuel →
      ∀ sp ∈ (classifyStep b s).2.2, sp.text ≠ [] := by
    intro fuel
    induction fuel with
    | zero =>
      intro b s h sp hsp
      have : s = [] := List.length_eq_zero.mp (by omega)
      subst this
      unfold classifyStep at hsp
      rw [classifyGo_nil] at hsp
      exact absurd hsp (List.not_mem_nil sp)
    | succ fuel ih =>
      intro b s h sp hsp
      cases b with
      | false =>
        cases hfind : findSub openTag s with
        | some i =>
          have hle := findSub_some_add_le openTag_ne_nil hfind
          rw [openTag_length] at hle
          rw [classifyStep_false_some hfind] at hsp
          dsimp only at hsp
          rw [List.mem_append] at hsp
          rcases hsp with hsp | hsp
          · by_cases hi : 0 < i
            · rw [if_pos hi, List.mem_singleton] at hsp
              rw [hsp]
              simp only [ne_eq, List.take_eq_nil_iff]
              push_neg
              constructor
              · omega
              · intro hnil
                rw [hnil] at hle
                simp at hle
            · rw [if_neg hi] at hsp
              exact absurd hsp (List.not_mem_nil sp)
          · exact ih true (s.drop (i + 10))
              (by rw [List.length_drop]; omega) sp hsp
        | none =>
          rw [classifyStep_false_none hfind] at hsp
          by_cases hk : splitIdx partialOpenTags s < s.length
          · rw [if_pos hk] at hsp
            by_cases hp : 0 < splitIdx partialOpenTags s
            · rw [if_pos hp, List.mem_singleton] at hsp
              rw [hsp]
              simp only [ne_eq, List.take_eq_nil_iff]
              push_neg
              constructor
              · omega
              · intro hnil
                rw [hnil] at hk
                simp at hk
            · rw [if_neg hp] at hsp
              exact absurd hsp (List.not_mem_nil sp)
          · rw [if_neg hk] at hsp
            by_cases hnil : s = []
            · rw [if_pos hnil] at hsp
              exact absurd hsp (List.not_mem_nil sp)
            · rw [if_neg hnil, List.mem_singleton] at hsp
              rw [hsp]
              exact hnil
      | true =>
        cases hfind : findSub closeTag s with
        | some i =>
          have hle := findSub_some_add_le closeTag_ne_nil hfind
          rw [closeTag_length] at hle
          rw [classifyStep_true_some hfind] at hsp
          dsimp only at hsp
          rw [List.mem_append] at hsp
          rcases hsp with hsp | hsp
          · by_cases hi : s.take i = []
            · rw [if_pos hi] at hsp
              exact absurd hsp (List.not_mem_nil sp)
            · rw [if_neg hi, List.mem_singleton] at hsp
              rw [hsp]
              exact hi
          · exact ih false (s.drop (i + 11))
              (by rw [List.length_drop]; omega) sp hsp
        | none =>
          rw [classifyStep_true_none hfind] at hsp
          by_cases hk : splitIdx partialCloseTags s < s.length
          · rw [if_pos hk] at hsp
            by_cases hp : 0 < splitIdx partialCloseTags s
            · rw [if_pos hp, List.mem_singleton] at hsp
              rw [hsp]
              simp only [ne_eq, List.take_eq_nil_iff]
              push_neg
              constructor
              · omega
              · intro hnil
                rw [hnil] at hk
                simp at hk
            · rw [if_neg hp] at hsp
              exact absurd hsp (List.not_mem_nil sp)
          · rw [if_neg hk] at hsp
            by_cases hnil : s = []
            · rw [if_pos hnil] at hsp
              exact absurd hsp (List.not_mem_nil sp)
            · rw [if_neg hnil, List.mem_singleton] at hsp
              rw [hsp]
              exact hnil
  exact this s.length b s (le_refl _)

/-- Every span a full classified run (flush included) emits is nonempty. -/
theorem classify_spans_ne_nil (ds : List Str) :
    ∀ sp ∈ classify ds, sp.text ≠ [] := by
  have hrun : ∀ (ds : List Str) (b : Bool) (buf : Str),
      ∀ sp ∈ (runDeltas b buf ds).2.2, sp.text ≠ [] := by
    intro ds
    induction ds with
    | nil =>
      intro b buf sp hsp
      rw [runDeltas] at hsp
      exact absurd hsp (List.not_mem_nil sp)
    | cons d ds ih =>
      intro b buf sp hsp
      rw [runDeltas] at hsp
      rw [List.mem_append] at hsp
      rcases hsp with hsp | hsp
      · exact classifyStep_spans_ne_nil b (buf ++ d) sp hsp
      · exact ih _ _ sp hsp
  intro sp hsp
  unfold classify at hsp
  rw [List.mem_append] at hsp
  rcases hsp with hsp | hsp
  · exact hrun ds false [] sp hsp
  · -- flushed span
    rcases hb : (runDeltas false [] ds).1 with _ | _ <;>
      rcases hbuf : (runDeltas false [] ds).2.1 with _ | ⟨c, rest⟩ <;>
      rw [hb, hbuf] at hsp
    · exact absurd hsp (List.not_mem_nil sp)
    · rw [show flushSpans false (c :: rest) = [⟨.answer, c :: rest⟩] from rfl,
        List.mem_singleton] at hsp
      rw [hsp]
      exact List.cons_ne_nil c rest
    · exact absurd hsp (List.not_mem_nil sp)
    · rw [show flushSpans true (c :: rest) = [⟨.reasoning, c :: rest⟩] from rfl,
        List.mem_singleton] at hsp
      rw [hsp]
      exact List.cons_ne_nil c rest

/-! ## Span coalescing and chunking invariance

`normalizeSpans` merges adjacent spans of equal kind; `segmentsFrom` is the
canonical alternating decomposition of the unsplit text. Chunking changes
only how the classifier slices each region into spans, never the region
boundaries, so the two agree after coalescing. -/

/-- Push a span onto a span list, merging with the head when kinds agree. -/
def mergeCons (sp : Span) : List Span → List Span
  | [] => [sp]
  | t :: rest =>
      if sp.kind = t.kind then ⟨sp.kind, sp.text ++ t.text⟩ :: rest
      else sp :: t :: rest

/-- Coalesce adjacent spans of equal kind. -/
def normalizeSpans (l : List Span) : List Span := l.foldr mergeCons []

theorem normalizeSpans_append (l₁ l₂ : List Span) :
    normalizeSpans (l₁ ++ l₂) = l₁.foldr mergeCons (normalizeSpans l₂) := by
  rw [normalizeSpans, normalizeSpans, List.foldr_append]

theorem mergeCons_mergeCons (x : SpanKind) (a b : Str) (N : List Span) :
    mergeCons ⟨x, a⟩ (mergeCons ⟨x, b⟩ N) = mergeCons ⟨x, a ++ b⟩ N := by
  cases N with
  | nil => simp [mergeCons]
  | cons t rest =>
    by_cases h : x = t.kind
    · simp [mergeCons, h, List.append_assoc]
    · simp [mergeCons, h]

/-- The canonical alternating decomposition of the unsplit text, starting in
state `b`. -/
def segGo : Nat → Bool → Str → List Span
  | 0, _, _ => []
  | fuel + 1, false, s =>
    match findSub openTag s with
    | some i =>
        (if 0 < i then [⟨.answer, s.take i⟩] else [])
          ++ segGo fuel true (s.drop (i + 10))
    | none => if s = [] then [] else [⟨.answer, s⟩]
  | fuel + 1, true, s =>
    match findSub closeTag s with
    | some i =>
        (if 0 < i then [⟨.reasoning, s.take i⟩] else [])
          ++ segGo fuel false (s.drop (i + 11))
    | none => if s = [] then [] else [⟨.reasoning, s⟩]

def segmentsFrom (b : Bool) (s : Str) : List Span := segGo s.length b s

theorem segGo_nil (fuel : Nat) (b : Bool) : segGo fuel b [] = [] := by
  match fuel, b with
  | 0, _ => rfl
  | fuel + 1, false =>
    rw [segGo, findSub_nil_of_ne_nil openTag_ne_nil]
    rfl
  | fuel + 1, true =>
    rw [segGo, findSub_nil_of_ne_nil closeTag_ne_nil]
    rfl

theorem segGo_congr :
    ∀ {fuel fuel' : Nat} {b : Bool} {s : Str},
      s.length ≤ fuel → s.length ≤ fuel' →
      segGo fuel b s = segGo fuel' b s := by
  intro fuel
  induction fuel with
  | zero =>
    intro fuel' b s h _
    have : s = [] := List.length_eq_zero.mp (by omega)
    subst this
    rw [segGo_nil, segGo_nil]
  | succ fuel ih =>
    intro fuel' b s h h'
    cases fuel' with
    | zero =>
      have : s = [] := List.length_eq_zero.mp (by omega)
      subst this
      rw [segGo_nil, segGo_nil]
    | succ fuel' =>
      cases b with
      | false =>
        rw [segGo, segGo]
        cases hfind : findSub openTag s with
        | some i =>
          have hle := findSub_some_add_le openTag_ne_nil hfind
          rw [openTag_length] at hle
          have h1 : (s.drop (i + 10)).length ≤ fuel := by
            rw [List.length_drop]; omega
          have h2 : (s.drop (i + 10)).length ≤ fuel' := by
            rw [List.length_drop]; omega
          simp only [ih h1 h2]
        | none => rfl
      | true =>
        rw [segGo, segGo]
        cases hfind : findSub closeTag s with
        | some i =>
          have hle := findSub_some_add_le closeTag_ne_nil hfind
          rw [closeTag_length] at hle
          have h1 : (s.drop (i + 11)).length ≤ fuel := by
            rw [List.length_drop]; omega
          have h2 : (s.drop (i + 11)).length ≤ fuel' := by
            rw [List.length_drop]; omega
          simp only [ih h1 h2]
        | none => rfl

theorem segmentsFrom_false_some {s : Str} {i : Nat}
    (h : findSub openTag s = some i) :
    segmentsFrom false s =
      (if 0 < i then [⟨.answer, s.take i⟩] else [])
        ++ segmentsFrom true (s.drop (i + 10)) := by
  have hle := findSub_some_add_le openTag_ne_nil h
  rw [openTag_length] at hle
  unfold segmentsFrom
  obtain ⟨n, hn⟩ : ∃ n, s.length = n + 1 := ⟨s.length - 1, by omega⟩
  rw [hn, segGo, h]
  have hd : (s.drop (i + 10)).length ≤ n := by
    rw [List.length_drop]; omega
  simp only [segGo_congr hd (le_refl _)]

theorem segmentsFrom_false_none {s : Str} (h : findSub openTag s = none) :
    segmentsFrom false s = if s = [] then [] else [⟨.answer, s⟩] := by
  unfold segmentsFrom
  cases s with
  | nil => rw [segGo_nil]; rfl
  | cons c rest =>
    rw [show (c :: rest).length = rest.length + 1 from rfl, segGo, h]

theorem segmentsFrom_true_some {s : Str} {i : Nat}
    (h : findSub closeTag s = some i) :
    segmentsFrom true s =
      (if 0 < i then [⟨.reasoning, s.take i⟩] else [])
        ++ segmentsFrom false (s.drop (i + 11)) := by
  have hle := findSub_some_add_le closeTag_ne_nil h
  rw [closeTag_length] at hle
  unfold segmentsFrom
  obtain ⟨n, hn⟩ : ∃ n, s.length = n + 1 := ⟨s.length - 1, by omega⟩
  rw [hn, segGo, h]
  have hd : (s.drop (i + 11)).length ≤ n := by
    rw [List.length_drop]; omega
  simp only [segGo_congr hd (le_refl _)]

theorem segmentsFrom_true_none {s : Str} (h : findSub closeTag s = none) :
    segmentsFrom true s = if s = [] then [] else [⟨.reasoning, s⟩] := by
  unfold segmentsFrom
  cases s with
  | nil => rw [segGo_nil]; rfl
  | cons c rest =>
    rw [show (c :: rest).length = rest.length + 1 from rfl, segGo, h]

theorem foldr_opt_span (c : Prop) [Decidable c] (x : Span) (N : List Span) :
    (if c then [x] else []).foldr mergeCons N = if c then mergeCons x N else N := by
  by_cases h : c <;> simp [h, mergeCons]

/-- Splitting the canonical Visible decomposition at a point with no earlier
opening-marker occurrence changes nothing after coalescing. -/
theorem segSplit_false {u : Str} {k : Nat} (hk : k ≤ u.length)
    (h : ∀ j, j < k → ¬ openTag <+: u.drop j) :
    normalizeSpans (segmentsFrom false u) =
      normalizeSpans ((if 0 < k then [⟨.answer, u.take k⟩] else [])
        ++ segmentsFrom false (u.drop k)) := by
  by_cases hk0 : 0 < k
  · rw [if_pos hk0]
    have hune : u ≠ [] := by
      intro h0
      subst h0
      simp at hk
      omega
    have hshift := findSub_drop_of_no_early h
    cases hfind : findSub openTag (u.drop k) with
    | none =>
      have hu : findSub openTag u = none := by
        rw [hshift, hfind]
        rfl
      rw [segmentsFrom_false_none hu, segmentsFrom_false_none hfind,
        if_neg hune]
      by_cases hdrop : u.drop k = []
      · rw [if_pos hdrop]
        have hlen : u.length ≤ k := by
          have h1 := List.drop_eq_nil_iff.mp hdrop
          omega
        rw [List.take_of_length_le hlen, List.append_nil]
      · rw [if_neg hdrop]
        show normalizeSpans [⟨.answer, u⟩] =
          normalizeSpans [⟨.answer, u.take k⟩, ⟨.answer, u.drop k⟩]
        simp [normalizeSpans, mergeCons, List.take_append_drop]
    | some m =>
      have hu : findSub openTag u = some (m + k) := by
        rw [hshift, hfind]
        rfl
      rw [segmentsFrom_false_some hu, segmentsFrom_false_some hfind,
        List.drop_drop, show k + (m + 10) = m + k + 10 by omega]
      rw [normalizeSpans_append, foldr_opt_span,
        if_pos (show 0 < m + k by omega),
        normalizeSpans_append, List.foldr_cons, List.foldr_nil,
        normalizeSpans_append, foldr_opt_span]
      by_cases hm : 0 < m
      · rw [if_pos hm, mergeCons_mergeCons]
        rw [← List.take_add, Nat.add_comm k m]
      · rw [if_neg hm]
        have : m = 0 := by omega
        subst this
        rw [Nat.zero_add]
  · rw [if_neg hk0]
    have : k = 0 := by omega
    subst this
    rw [List.drop_zero, List.nil_append]

/-- Splitting the canonical Reasoning decomposition at a point with no
earlier closing-marker occurrence changes nothing after coalescing. -/
theorem segSplit_true {u : Str} {k : Nat} (hk : k ≤ u.length)
    (h : ∀ j, j < k → ¬ closeTag <+: u.drop j) :
    normalizeSpans (segmentsFrom true u) =
      normalizeSpans ((if 0 < k then [⟨.reasoning, u.take k⟩] else [])
        ++ segmentsFrom true (u.drop k)) := by
  by_cases hk0 : 0 < k
  · rw [if_pos hk0]
    have hune : u ≠ [] := by
      intro h0
      subst h0
      simp at hk
      omega
    have hshift := findSub_drop_of_no_early h
    cases hfind : findSub closeTag (u.drop k) with
    | none =>
      have hu : findSub closeTag u = none := by
        rw [hshift, hfind]
        rfl
      rw [segmentsFrom_true_none hu, segmentsFrom_true_none hfind,
        if_neg hune]
      by_cases hdrop : u.drop k = []
      · rw [if_pos hdrop]
        have hlen : u.length ≤ k := by
          have h1 := List.drop_eq_nil_iff.mp hdrop
          omega
        rw [List.take_of_length_le hlen, List.append_nil]
      · rw [if_neg hdrop]
        show normalizeSpans [⟨.reasoning, u⟩] =
          normalizeSpans [⟨.reasoning, u.take k⟩, ⟨.reasoning, u.drop k⟩]
        simp [normalizeSpans, mergeCons, List.take_append_drop]
    | some m =>
      have hu : findSub closeTag u = some (m + k) := by
        rw [hshift, hfind]
        rfl
      rw [segmentsFrom_true_some hu, segmentsFrom_true_some hfind,
        List.drop_drop, show k + (m + 11) = m + k + 11 by omega]
      rw [normalizeSpans_append, foldr_opt_span,
        if_pos (show 0 < m + k by omega),
        normalizeSpans_append, List.foldr_cons, List.foldr_nil,
        normalizeSpans_append, foldr_opt_span]
      by_cases hm : 0 < m
      · rw [if_pos hm, mergeCons_mergeCons]
        rw [← List.take_add, Nat.add_comm k m]
      · rw [if_neg hm]
        have : m = 0 := by omega
        subst this
        rw [Nat.zero_add]
  · rw [if_neg hk0]
    have : k = 0 := by omega
    subst this
    rw [List.drop_zero, List.nil_append]

/-- Composition at the coalesced level: processing `s` and continuing with
`t` yields, after coalescing, the canonical decomposition of `s ++ t`. -/
theorem normalize_classifyStep_seg (b : Bool) (s t : Str) :
    normalizeSpans ((classifyStep b s).2.2
      ++ segmentsFrom (classifyStep b s).1 ((classifyStep b s).2.1 ++ t)) =
    normalizeSpans (segmentsFrom b (s ++ t)) := by
  have main : ∀ fuel b (s : Str), s.length ≤ fuel → ∀ t,
      normalizeSpans ((classifyStep b s).2.2
        ++ segmentsFrom (classifyStep b s).1 ((classifyStep b s).2.1 ++ t)) =
      normalizeSpans (segmentsFrom b (s ++ t)) := by
    intro fuel
    induction fuel with
    | zero =>
      intro b s h t
      have : s = [] := List.length_eq_zero.mp (by omega)
      subst this
      unfold classifyStep
      rw [classifyGo_nil]
      rw [List.nil_append, List.nil_append]
    | succ fuel ih =>
      intro b s h t
      cases b with
      | false =>
        cases hfind : findSub openTag s with
        | some i =>
          have hle := findSub_some_add_le openTag_ne_nil hfind
          rw [openTag_length] at hle
          rw [classifyStep_false_some hfind]
          dsimp only
          have hfind' : findSub openTag (s ++ t) = some i :=
            findSub_append_of_some hfind
          rw [segmentsFrom_false_some hfind',
            List.take_append_of_le_length (by omega),
            drop_append_of_le (by omega)]
          rw [List.append_assoc, normalizeSpans_append,
            ih true (s.drop (i + 10)) (by rw [List.length_drop]; omega) t,
            ← normalizeSpans_append]
        | none =>
          rw [classifyStep_false_none hfind]
          have hnoocc := no_occ_before_splitIdx
            (by rw [openTag_length]; exact openTag_take_mem)
            partialOpenTags_no_border hfind t
          by_cases hk : splitIdx partialOpenTags s < s.length
          · rw [if_pos hk]
            dsimp only
            have hkle : splitIdx partialOpenTags s ≤ s.length := by omega
            rw [segSplit_false (u := s ++ t)
              (by rw [List.length_append]; omega) hnoocc]
            rw [List.take_append_of_le_length hkle, drop_append_of_le hkle]
          · rw [if_neg hk]
            dsimp only
            have hkeq : splitIdx partialOpenTags s = s.length := by
              have := splitIdx_le partialOpenTags s
              omega
            rw [hkeq] at hnoocc
            rw [segSplit_false (u := s ++ t)
              (by rw [List.length_append]; omega) hnoocc]
            rw [List.take_left, List.drop_left, List.nil_append]
            have : (if s = [] then ([] : List Span) else [⟨.answer, s⟩])
                = if 0 < s.length then [⟨.answer, s⟩] else [] := by
              by_cases hs : s = []
              · rw [if_pos hs, hs]
                rfl
              · rw [if_neg hs, if_pos (List.length_pos.mpr hs)]
            rw [this]
      | true =>
        cases hfind : findSub closeTag s with
        | some i =>
          have hle := findSub_some_add_le closeTag_ne_nil hfind
          rw [closeTag_length] at hle
          rw [classifyStep_true_some hfind]
          dsimp only
          have hfind' : findSub closeTag (s ++ t) = some i :=
            findSub_append_of_some hfind
          rw [segmentsFrom_true_some hfind',
            drop_append_of_le (by omega)]
          rw [List.append_assoc, normalizeSpans_append,
            ih false (s.drop (i + 11)) (by rw [List.length_drop]; omega) t,
            ← normalizeSpans_append]
          -- align the two emission guards for the pre-marker reasoning text
          have hguard : (if s.take i = [] then ([] : List Span)
              else [⟨.reasoning, s.take i⟩])
              = (if 0 < i then [⟨.reasoning, (s ++ t).take i⟩] else []) := by
            rw [List.take_append_of_le_length (by omega)]
            by_cases hi : 0 < i
            · rw [if_pos hi, if_neg]
              simp only [ne_eq, List.take_eq_nil_iff]
              push_neg
              constructor
              · omega
              · intro hnil
                rw [hnil] at hle
                simp at hle
            · rw [if_neg hi]
              have : i = 0 := by omega
              subst this
              rw [if_pos (List.take_zero s)]
          rw [hguard]
        | none =>
          rw [classifyStep_true_none hfind]
          have hnoocc := no_occ_before_splitIdx
            (by rw [closeTag_length]; exact closeTag_take_mem)
            partialCloseTags_no_border hfind t
          by_cases hk : splitIdx partialCloseTags s < s.length
          · rw [if_pos hk]
            dsimp only
            have hkle : splitIdx partialCloseTags s ≤ s.length := by omega
            rw [segSplit_true (u := s ++ t)
              (by rw [List.length_append]; omega) hnoocc]
            rw [List.take_append_of_le_length hkle, drop_append_of_le hkle]
          · rw [if_neg hk]
            dsimp only
            have hkeq : splitIdx partialCloseTags s = s.length := by
              have := splitIdx_le partialCloseTags s
              omega
            rw [hkeq] at hnoocc
            rw [segSplit_true (u := s ++ t)
              (by rw [List.length_append]; omega) hnoocc]
            rw [List.take_left, List.drop_left, List.nil_append]
            have : (if s = [] then ([] : List Span) else [⟨.reasoning, s⟩])
                = if 0 < s.length then [⟨.reasoning, s⟩] else [] := by
              by_cases hs : s = []
              · rw [if_pos hs, hs]
                rfl
              · rw [if_neg hs, if_pos (List.length_pos.mpr hs)]
            rw [this]
  exact main s.length b s (le_refl _) t

/-- A good leftover buffer flushes to exactly its canonical decomposition. -/
theorem flush_seg {b : Bool} {buf : Str} (h : goodState b buf) :
    flushSpans b buf = segmentsFrom b buf := by
  have hnone := goodState_findSub_none h
  cases b with
  | false =>
    rw [segmentsFrom_false_none (by simpa using hnone)]
    cases buf with
    | nil => rfl
    | cons c rest =>
      rw [if_neg (List.cons_ne_nil c rest)]
      rfl
  | true =>
    rw [segmentsFrom_true_none (by simpa using hnone)]
    cases buf with
    | nil => rfl
    | cons c rest =>
      rw [if_neg (List.cons_ne_nil c rest)]
      rfl

/-- After coalescing, a whole run (flush included) produces the canonical
decomposition of the concatenated input. -/
theorem runDeltas_normalize (ds : List Str) :
    ∀ (b : Bool) (buf : Str), goodState b buf →
      normalizeSpans ((runDeltas b buf ds).2.2
        ++ flushSpans (runDeltas b buf ds).1 (runDeltas b buf ds).2.1) =
      normalizeSpans (segmentsFrom b (buf ++ ds.flatten)) := by
  induction ds with
  | nil =>
    intro b buf hgood
    rw [runDeltas]
    rw [List.nil_append, List.flatten_nil, List.append_nil, flush_seg hgood]
  | cons d ds ih =>
    intro b buf hgood
    rw [runDeltas]
    dsimp only
    rw [List.append_assoc, normalizeSpans_append,
      ih _ _ (classifyStep_good b (buf ++ d)),
      ← normalizeSpans_append, normalize_classifyStep_seg,
      List.flatten_cons, ← List.append_assoc]

/-- Coalesced classification depends only on the concatenated text. -/
theorem classify_normalize (ds : List Str) :
    normalizeSpans (classify ds) = normalizeSpans (segmentsFrom false ds.flatten) := by
  unfold classify
  have := runDeltas_normalize ds false [] (goodState_nil false)
  rwa [List.nil_append] at this

/-! ## Claim theorems for the span classifier -/

/-- C1 (counterexample): on the spec's own Scenario B chunking, the code
emits `Reasoning("se")` and `Reasoning("cret")` as two separate spans, so the
emitted span sequence is neither the claimed three-span sequence nor the
sequence produced when the whole text arrives as one delta. -/
theorem C1_chunking_counterexample :
    classify ["Hi <thi".data, "nking>se".data, "cret</thinking> answer".data]
        ≠ [⟨.answer, "Hi ".data⟩, ⟨.reasoning, "secret".data⟩,
           ⟨.answer, " answer".data⟩] ∧
    classify ["Hi <thi".data, "nking>se".data, "cret</thinking> answer".data]
        ≠ classify ["Hi <thinking>secret</thinking> answer".data] ∧
    classify ["Hi <thi".data, "nking>se".data, "cret</thinking> answer".data]
        = [⟨.answer, "Hi ".data⟩, ⟨.reasoning, "se".data⟩,
           ⟨.reasoning, "cret".data⟩, ⟨.answer, " answer".data⟩] := by
  refine ⟨by decide, by decide, by decide⟩

/-- C1 (amended): for every way of splitting a logical text into deltas, the
classifier emits the same spans as the single-delta run up to coalescing
adjacent spans of the same kind (the region boundaries and their tags are
chunking-invariant; only the slicing of each region into spans differs). -/
theorem C1_chunking_invariance_up_to_coalescing :
    ∀ (ds : List Str) (text : Str), ds.flatten = text →
      normalizeSpans (classify ds) = normalizeSpans (classify [text]) := by
  intro ds text h
  rw [classify_normalize, classify_normalize]
  rw [h, show ([text] : List Str).flatten = text by
    rw [List.flatten_cons, List.flatten_nil, List.append_nil]]

/-- Witness for C1 (amended) at the Scenario B chunking. -/
theorem C1_chunking_invariance_witness :
    (["Hi <thi".data, "nking>se".data,
      "cret</thinking> answer".data] : List Str).flatten =
      "Hi <thinking>secret</thinking> answer".data ∧
    normalizeSpans (classify
      ["Hi <thi".data, "nking>se".data, "cret</thinking> answer".data]) =
      normalizeSpans (classify
        ["Hi <thinking>secret</thinking> answer".data]) :=
  ⟨by decide,
   C1_chunking_invariance_up_to_coalescing
     ["Hi <thi".data, "nking>se".data, "cret</thinking> answer".data]
     "Hi <thinking>secret</thinking> answer".data (by decide)⟩

/-- C2: for every delta sequence the persisted answer (concatenation of all
`Answer` spans, which is exactly what the handler accumulates into
`full_answer` and writes to the store) equals the concatenated input with
every marker-delimited reasoning region and the markers removed, content of
an unclosed trailing region excluded; in particular the single delta
`"<thinking>never closed"` yields one `Reasoning("never closed")` span and an
empty persisted text. -/
theorem C2_persisted_reconstruction :
    (∀ ds : List Str, persistedAnswer ds = removeReasoningRegions ds.flatten) ∧
    classify ["<thinking>never closed".data] =
      [⟨.reasoning, "never closed".data⟩] ∧
    persistedAnswer ["<thinking>never closed".data] = [] :=
  ⟨persistedAnswer_eq_strip, by decide, by decide⟩

/-- C3 (counterexample): deltas `["Hello ", "world"]` produce one `Answer`
span per delta — two spans, not the single claimed `Answer("Hello world")`. -/
theorem C3_single_span_counterexample :
    classify ["Hello ".data, "world".data]
        ≠ [⟨.answer, "Hello world".data⟩] ∧
    classify ["Hello ".data, "world".data]
        = [⟨.answer, "Hello ".data⟩, ⟨.answer, "world".data⟩] := by
  refine ⟨by decide, by decide⟩

/-- C3 (amended): when no marker text occurs in the concatenated input, the
classifier emits only `Answer` spans (one per flushed slice, possibly
several), and their concatenation equals the concatenation of all input
deltas. -/
theorem C3_no_marker_all_answer :
    ∀ ds : List Str,
      findSub openTag ds.flatten = none →
      findSub closeTag ds.flatten = none →
      (∀ sp ∈ classify ds, sp.kind = .answer) ∧
        answerText (classify ds) = ds.flatten := by
  intro ds hopen _
  have hrun := runDeltas_no_marker ds [] (by rwa [List.nil_append])
  constructor
  · intro sp hsp
    unfold classify at hsp
    rw [List.mem_append] at hsp
    rcases hsp with hsp | hsp
    · exact hrun.2 sp hsp
    · rw [hrun.1] at hsp
      cases hbuf : (runDeltas false [] ds).2.1 with
      | nil =>
        rw [hbuf] at hsp
        exact absurd hsp (List.not_mem_nil sp)
      | cons c rest =>
        rw [hbuf] at hsp
        rw [show flushSpans false (c :: rest) = [⟨.answer, c :: rest⟩] from rfl,
          List.mem_singleton] at hsp
        rw [hsp]
  · have := persistedAnswer_eq_strip ds
    unfold persistedAnswer at this
    rw [this]
    unfold removeReasoningRegions
    exact visibleStrip_false_none hopen

/-- Witness for C3 (amended) at Scenario A. -/
theorem C3_no_marker_witness :
    findSub openTag (["Hello ".data, "world".data] : List Str).flatten = none ∧
    findSub closeTag (["Hello ".data, "world".data] : List Str).flatten = none ∧
    ((∀ sp ∈ classify ["Hello ".data, "world".data], sp.kind = .answer) ∧
      answerText (classify ["Hello ".data, "world".data]) =
        (["Hello ".data, "world".data] : List Str).flatten) :=
  ⟨by decide, by decide,
   C3_no_marker_all_answer ["Hello ".data, "world".data]
     (by decide) (by decide)⟩

/-- C7: after any number of processed deltas the pending buffer is empty or
a nonempty strict prefix of the marker currently watched for (`<thinking>`
in Visible state, `</thinking>` in Reasoning state), and its length is
strictly below that marker's length (hence below 11, the longest marker). -/
theorem C7_pending_buffer_invariant :
    ∀ ds : List Str,
      ((runDeltas false [] ds).2.1 = [] ∨
        ((runDeltas false [] ds).2.1 ≠ [] ∧
          (runDeltas false [] ds).2.1 <+:
            (if (runDeltas false [] ds).1 then closeTag else openTag) ∧
          (runDeltas false [] ds).2.1 ≠
            (if (runDeltas false [] ds).1 then closeTag else openTag))) ∧
      (runDeltas false [] ds).2.1.length <
        (if (runDeltas false [] ds).1 then closeTag else openTag).length := by
  intro ds
  have hgood := runDeltas_good (goodState_nil false) ds
  cases hgood with
  | inl h =>
    rw [h]
    refine ⟨Or.inl rfl, ?_⟩
    cases (runDeltas false [] ds).1 with
    | false => rw [if_neg (by simp), openTag_length]; simp
    | true => rw [if_pos rfl, closeTag_length]; simp
  | inr h =>
    cases hb : (runDeltas false [] ds).1 with
    | false =>
      rw [hb] at h
      rw [if_neg (by simp)] at h
      obtain ⟨hne, hpre, hlt⟩ := partialOpenTags_spec _ h
      rw [if_neg (by simp)]
      refine ⟨Or.inr ⟨hne, hpre, ?_⟩, by rw [openTag_length]; omega⟩
      intro heq
      rw [heq, openTag_length] at hlt
      omega
    | true =>
      rw [hb] at h
      rw [if_pos rfl] at h
      obtain ⟨hne, hpre, hlt⟩ := partialCloseTags_spec _ h
      rw [if_pos rfl]
      refine ⟨Or.inr ⟨hne, hpre, ?_⟩, by rw [closeTag_length]; omega⟩
      intro heq
      rw [heq, closeTag_length] at hlt
      omega

/-- C8: every span emitted by the classifier — mid-stream and in the
end-of-stream flush — has nonempty text. -/
theorem C8_no_empty_spans :
    ∀ (ds : List Str), ∀ sp ∈ classify ds, sp.text ≠ [] :=
  classify_spans_ne_nil

/-- Witness for C8 at a concrete emitted span. -/
theorem C8_no_empty_spans_witness :
    (⟨SpanKind.answer, "Hello ".data⟩ : Span).text ≠ [] :=
  C8_no_empty_spans ["Hello ".data, "world".data]
    ⟨SpanKind.answer, "Hello ".data⟩ (by decide)

/-! ## The SSE frame decoder (`process_stream`, main.rs lines 1789-1824)

The decoder state is a growing line buffer. Whenever the buffer holds a
`\n`, the line before it is cut off, trimmed, and — when prefixed by
`"data: "` — either terminates the stream (`[DONE]`) or is handed to the
JSON layer. The JSON layer (`serde_json::from_str` followed by the
`choices[0].delta.content` extraction) is external code, modelled as an
opaque `parse : Str → Option Str` the theorems quantify over. -/

/-- The Unicode `White_Space` code points recognized by Rust's
`char::is_whitespace` (used by `str::trim`). -/
def rustIsWhitespace (c : Char) : Bool :=
  c.toNat ∈ [0x09, 0x0A, 0x0B, 0x0C, 0x0D, 0x20, 0x85, 0xA0, 0x1680,
    0x2000, 0x2001, 0x2002, 0x2003, 0x2004, 0x2005, 0x2006, 0x2007, 0x2008,
    0x2009, 0x200A, 0x2028, 0x2029, 0x202F, 0x205F, 0x3000]

/-- Model of Rust `str::trim`. -/
def rustTrim (s : Str) : Str :=
  ((s.dropWhile rustIsWhitespace).reverse.dropWhile rustIsWhitespace).reverse

/-- The event-data marker `"data: "` (6 characters, main.rs line 1800). -/
def dataMarker : Str := "data: ".data

/-- The termination sentinel (main.rs line 1802). -/
def doneToken : Str := "[DONE]".data

/-- Outcome of processing one complete line. -/
inductive LineResult
  | done
  | delta (d : Str)
  | skip
deriving DecidableEq, Repr

/-- One complete line (main.rs lines 1797-1810): trim it; only
`"data: "`-prefixed lines count; `[DONE]` terminates; otherwise the JSON
layer either yields a content delta or the line is silently skipped. -/
def handleLine (parse : Str → Option Str) (line : Str) : LineResult :=
  let t := rustTrim line
  if dataMarker.isPrefixOf t then
    let payload := t.drop 6
    if payload = doneToken then .done
    else
      match parse payload with
      | some c => .delta c
      | none => .skip
  else .skip

/-- Drain all complete lines from the buffer (the `loop` of main.rs lines
1795-1812): returns the yielded deltas and the remaining buffer, or `none`
when the `[DONE]` sentinel ended the stream. -/
def drainGo (parse : Str → Option Str) : Nat → Str → List Str × Option Str
  | 0, buffer => ([], some buffer)
  | fuel + 1, buffer =>
    match findSub ['\n'] buffer with
    | some idx =>
      match handleLine parse (buffer.take idx) with
      | .done => ([], none)
      | .delta d =>
          let out := drainGo parse fuel (buffer.drop (idx + 1))
          (d :: out.1, out.2)
      | .skip => drainGo parse fuel (buffer.drop (idx + 1))
    | none => ([], some buffer)

def drainBuffer (parse : Str → Option Str) (buffer : Str) :
    List Str × Option Str :=
  drainGo parse buffer.length buffer

/-- The decoder over the transport's chunk sequence: append each chunk to
the line buffer and drain; the unfold endpoints (stream end, `[DONE]`)
discard whatever trailing bytes remain. -/
def runDecoder (parse : Str → Option Str) :
    Option Str → List Str → List Str
  | none, _ => []
  | some _, [] => []
  | some buf, c :: cs =>
      let out := drainBuffer parse (buf ++ c)
      out.1 ++ runDecoder parse out.2 cs

/-- `process_stream` (main.rs lines 1789-1824) as a function of the chunk
sequence delivered by the transport. -/
def process_stream (parse : Str → Option Str) (chunks : List Str) :
    List Str :=
  runDecoder parse (some []) chunks

/-- Modelled from the spec: the complete `\n`-terminated lines of a text, in
order, the unterminated remainder discarded. -/
def completeLinesGo : Nat → Str → List Str
  | 0, _ => []
  | fuel + 1, s =>
    match findSub ['\n'] s with
    | some idx => s.take idx :: completeLinesGo fuel (s.drop (idx + 1))
    | none => []

def completeLines (s : Str) : List Str := completeLinesGo s.length s

/-- Modelled from the spec: line-by-line decoding of the full text — yield
the content of each data line the JSON layer accepts, skip the rest, stop at
the first `[DONE]` sentinel. -/
def decodeLines (parse : Str → Option Str) : List Str → List Str
  | [] => []
  | l :: ls =>
    match handleLine parse l with
    | .done => []
    | .delta d => d :: decodeLines parse ls
    | .skip => decodeLines parse ls

theorem newline_ne_nil : (['\n'] : Str) ≠ [] := by decide

theorem completeLinesGo_nil (fuel : Nat) : completeLinesGo fuel [] = [] := by
  match fuel with
  | 0 => rfl
  | fuel + 1 =>
    rw [completeLinesGo, findSub_nil_of_ne_nil newline_ne_nil]

theorem completeLinesGo_congr :
    ∀ {fuel fuel' : Nat} {s : Str},
      s.length ≤ fuel → s.length ≤ fuel' →
      completeLinesGo fuel s = completeLinesGo fuel' s := by
  intro fuel
  induction fuel with
  | zero =>
    intro fuel' s h _
    have : s = [] := List.length_eq_zero.mp (by omega)
    subst this
    rw [completeLinesGo_nil, completeLinesGo_nil]
  | succ fuel ih =>
    intro fuel' s h h'
    cases fuel' with
    | zero =>
      have : s = [] := List.length_eq_zero.mp (by omega)
      subst this
      rw [completeLinesGo_nil, completeLinesGo_nil]
    | succ fuel' =>
      rw [completeLinesGo, completeLinesGo]
      cases hfind : findSub ['\n'] s with
      | some idx =>
        have hle := findSub_some_add_le newline_ne_nil hfind
        simp only [List.length_singleton] at hle
        have h1 : (s.drop (idx + 1)).length ≤ fuel := by
          rw [List.length_drop]; omega
        have h2 : (s.drop (idx + 1)).length ≤ fuel' := by
          rw [List.length_drop]; omega
        simp only [ih h1 h2]
      | none => rfl

theorem completeLines_some {s : Str} {idx : Nat}
    (h : findSub ['\n'] s = some idx) :
    completeLines s = s.take idx :: completeLines (s.drop (idx + 1)) := by
  have hle := findSub_some_add_le newline_ne_nil h
  simp only [List.length_singleton] at hle
  unfold completeLines
  obtain ⟨n, hn⟩ : ∃ n, s.length = n + 1 := ⟨s.length - 1, by omega⟩
  rw [hn, completeLinesGo, h]
  have hd : (s.drop (idx + 1)).length ≤ n := by
    rw [List.length_drop]; omega
  simp only [completeLinesGo_congr hd (le_refl _)]

theorem completeLines_none {s : Str} (h : findSub ['\n'] s = none) :
    completeLines s = [] := by
  unfold completeLines
  cases s with
  | nil => rfl
  | cons c rest =>
    rw [show (c :: rest).length = rest.length + 1 from rfl, completeLinesGo, h]

/-- Draining a buffer accounts for exactly the leading complete lines of any
continuation of the stream; the leftover buffer holds no newline. -/
theorem drain_decode (parse : Str → Option Str) :
    ∀ (fuel : Nat) (u : Str), u.length ≤ fuel →
      (∀ t, decodeLines parse (completeLines (u ++ t)) =
        (drainGo parse fuel u).1 ++
          (match (drainGo parse fuel u).2 with
            | none => []
            | some rem => decodeLines parse (completeLines (rem ++ t)))) ∧
      (∀ rem, (drainGo parse fuel u).2 = some rem →
        findSub ['\n'] rem = none) := by
  intro fuel
  induction fuel with
  | zero =>
    intro u h
    have : u = [] := List.length_eq_zero.mp (by omega)
    subst this
    constructor
    · intro t
      rw [drainGo]
      dsimp only
      rw [List.nil_append, List.nil_append]
    · intro rem hrem
      rw [drainGo] at hrem
      dsimp only at hrem
      injection hrem with hrem
      subst hrem
      exact findSub_nil_of_ne_nil newline_ne_nil
  | succ fuel ih =>
    intro u h
    cases hfind : findSub ['\n'] u with
    | none =>
      constructor
      · intro t
        rw [drainGo, hfind]
        dsimp only
        rw [List.nil_append]
      · intro rem hrem
        rw [drainGo, hfind] at hrem
        dsimp only at hrem
        injection hrem with hrem
        subst hrem
        exact hfind
    | some idx =>
      have hle := findSub_some_add_le newline_ne_nil hfind
      simp only [List.length_singleton] at hle
      have hrec := ih (u.drop (idx + 1)) (by rw [List.length_drop]; omega)
      have hfind' : ∀ t, findSub ['\n'] (u ++ t) = some idx :=
        fun t => findSub_append_of_some hfind
      have hlines : ∀ t : Str, completeLines (u ++ t) =
          u.take idx :: completeLines (u.drop (idx + 1) ++ t) := by
        intro t
        rw [completeLines_some (hfind' t),
          List.take_append_of_le_length (by omega),
          drop_append_of_le (by omega)]
      constructor
      · intro t
        rw [hlines t, decodeLines, drainGo, hfind]
        dsimp only
        cases hline : handleLine parse (u.take idx) with
        | done => rfl
        | delta d =>
          dsimp only
          rw [hrec.1 t, List.cons_append]
        | skip =>
          dsimp only
          rw [hrec.1 t]
      · intro rem hrem
        rw [drainGo, hfind] at hrem
        dsimp only at hrem
        cases hline : handleLine parse (u.take idx) with
        | done =>
          rw [hline] at hrem
          dsimp only at hrem
          exact Option.noConfusion hrem
        | delta d =>
          rw [hline] at hrem
          dsimp only at hrem
          exact hrec.2 rem hrem
        | skip =>
          rw [hline] at hrem
          dsimp only at hrem
          exact hrec.2 rem hrem

/-- The decoder's output depends only on the concatenated byte stream and
follows the line-by-line specification. -/
theorem runDecoder_decode (parse : Str → Option Str) :
    ∀ (chunks : List Str) (buf : Str), findSub ['\n'] buf = none →
      runDecoder parse (some buf) chunks =
        decodeLines parse (completeLines (buf ++ chunks.flatten)) := by
  intro chunks
  induction chunks with
  | nil =>
    intro buf hbuf
    rw [runDecoder, List.flatten_nil, List.append_nil,
      completeLines_none hbuf, decodeLines]
  | cons c cs ih =>
    intro buf hbuf
    rw [runDecoder]
    have hfuel : (buf ++ c).length ≤ (buf ++ c).length := le_refl _
    have hdrain := drain_decode parse (buf ++ c).length (buf ++ c) hfuel
    rw [List.flatten_cons, ← List.append_assoc]
    rw [hdrain.1 cs.flatten]
    unfold drainBuffer
    cases hout : (drainGo parse (buf ++ c).length (buf ++ c)).2 with
    | none =>
      rw [runDecoder]
    | some rem =>
      rw [ih rem (hdrain.2 rem hout)]

/-- A concrete JSON layer for the sanity scenario. -/
def sampleParse (s : Str) : Option Str :=
  if s = "payload".data then some "one".data else none

/-- C9: for every JSON layer and every way the transport chunks the bytes,
the decoder yields exactly the line-by-line decoding of the concatenated
stream: complete `\n`-lines are trimmed, only `"data: "`-prefixed lines are
considered, each line the JSON layer accepts yields one content delta,
lines it rejects are silently skipped, and the first `[DONE]` sentinel ends
the sequence with all unconsumed trailing bytes discarded. A concrete run
with marker text and lines split across chunk boundaries, a non-data line,
and data after `[DONE]` illustrates each clause. -/
theorem C9_frame_decoder :
    (∀ (parse : Str → Option Str) (chunks : List Str),
      process_stream parse chunks =
        decodeLines parse (completeLines chunks.flatten)) ∧
    process_stream sampleParse
      ["da".data, "ta: payload\nx\nda".data,
       "ta: [DONE]\ndata: payload\n".data] = ["one".data] := by
  constructor
  · intro parse chunks
    unfold process_stream
    rw [runDecoder_decode parse chunks []
      (findSub_nil_of_ne_nil newline_ne_nil)]
    rw [List.nil_append]
  · decide

/-! ## Attachment-text truncation (`truncate_text`, main.rs lines 2125-2137)

`truncate_text` compares the *byte* length of the input against
`MAX_CHARS = 50_000` and, when longer, takes the byte slice
`&text[..50_000]`. A Rust byte slice panics when the end offset is not a
character boundary; the model returns `none` in exactly that case. -/

/-- UTF-8 encoded byte length of a character. -/
def utf8Size (c : Char) : Nat :=
  if c.toNat < 0x80 then 1
  else if c.toNat < 0x800 then 2
  else if c.toNat < 0x10000 then 3
  else 4

/-- Byte length of a string (Rust `str::len`). -/
def byteLen (s : Str) : Nat := (s.map utf8Size).sum

/-- Rust `&text[..n]`: the characters spanning the first `n` bytes, or
`none` when byte offset `n` is not a character boundary or is out of
bounds (the slice panics there). -/
def byteSlicePrefix : Str → Nat → Option Str
  | _, 0 => some []
  | [], _ + 1 => none
  | c :: rest, n + 1 =>
      if utf8Size c ≤ n + 1 then
        (byteSlicePrefix rest (n + 1 - utf8Size c)).map (c :: ·)
      else none

/-- `truncate_text` (main.rs lines 2125-2137): short texts pass through;
longer texts are cut at byte offset 50 000 and suffixed with the
truncation notice. `none` models the byte-slice panic. -/
def truncate_text (text : Str) : Option Str :=
  if byteLen text ≤ 50000 then some text
  else
    (byteSlicePrefix text 50000).map fun pre =>
      pre ++ "\n\n[Texte tronqué, ".data ++ (Nat.repr 50000).data
        ++ " premiers caractères sur ".data
        ++ (Nat.repr (byteLen text)).data ++ "]".data

theorem byteLen_append (s t : Str) :
    byteLen (s ++ t) = byteLen s + byteLen t := by
  unfold byteLen
  rw [List.map_append, List.sum_append]

theorem byteLen_replicate_a (n : Nat) :
    byteLen (List.replicate n 'a') = n := by
  unfold byteLen
  rw [List.map_replicate]
  have : utf8Size 'a' = 1 := by decide
  rw [this, List.sum_replicate, smul_eq_mul, Nat.mul_one]

theorem byteSlicePrefix_replicate_a (t : Str) :
    ∀ k n, k ≤ n →
      byteSlicePrefix (List.replicate k 'a' ++ t) n =
        (byteSlicePrefix t (n - k)).map (List.replicate k 'a' ++ ·) := by
  intro k
  induction k with
  | zero =>
    intro n _
    rw [List.replicate_zero, List.nil_append, Nat.sub_zero]
    cases o : byteSlicePrefix t n <;> simp [o]
  | succ k ih =>
    intro n h
    obtain ⟨m, rfl⟩ : ∃ m, n = m + 1 := ⟨n - 1, by omega⟩
    have ha : utf8Size 'a' = 1 := by decide
    rw [List.replicate_succ, List.cons_append, byteSlicePrefix,
      if_pos (by omega : utf8Size 'a' ≤ m + 1), ha,
      show m + 1 - 1 = m from rfl, ih m (by omega),
      show m + 1 - (k + 1) = m - k by omega]
    cases o : byteSlicePrefix t (m - k) with
    | none => rfl
    | some pre =>
      rw [Option.map_some', Option.map_some', Option.map_some',
        List.cons_append]

/-- The failing input for C10: 49 999 ASCII characters followed by one
three-byte character, so that byte offset 50 000 falls inside the last
character's encoding. -/
def euroChar : Char := '€'

def badTruncateInput : Str := List.replicate 49999 'a' ++ [euroChar]

/-- C10: `truncate_text` does not return normally on every UTF-8 input: on
49 999 `'a'`s followed by `'€'` (50 002 bytes) the slice `&text[..50_000]`
falls inside the euro sign's three-byte encoding, so the function panics
(modelled as `none`). -/
theorem C10_truncate_panics :
    byteLen badTruncateInput = 50002 ∧
    truncate_text badTruncateInput = none := by
  have hlen : byteLen badTruncateInput = 50002 := by
    unfold badTruncateInput
    rw [byteLen_append, byteLen_replicate_a]
    have : byteLen [euroChar] = 3 := by decide
    omega
  refine ⟨hlen, ?_⟩
  unfold truncate_text
  rw [if_neg (by omega)]
  unfold badTruncateInput
  rw [byteSlicePrefix_replicate_a [euroChar] 49999 50000 (by omega)]
  have : byteSlicePrefix [euroChar] (50000 - 49999) = none := by decide
  rw [this, Option.map_none', Option.map_none']

/-! ## The streamed endpoints: store effects and outbound events

The handlers' database and channel effects are embedded as explicit traces:
a `List StoreOp` of writes in program order, and a `List OutEvent` of SSE
send attempts in program order. Database reads (`fetch_chat_messages`,
`fetch_chat_session` before the spawn) are oracles assumed successful —
their failure paths return early with a 500 and perform no writes — except
for the final `fetch_chat_session` of the spawned task, whose success is the
`fetchFinalOk` input because it selects the terminal event. -/

/-- Store writes, in program order. -/
inductive StoreOp
  | insertMessage (role : Str) (content : Str)
  | insertAttachment (storageKey : Str)
  | updateSessionTitle (title : Str)
  | touchSession
  | updateMessageContent (messageId : Nat) (content : Str)
deriving DecidableEq, Repr

/-- Outbound SSE events; the session snapshots are abstracted to the
correlation id they carry. -/
inductive OutEvent
  | session (messageId : Nat)
  | token (text : Str)
  | reasoning (text : Str)
  | finalEvent
  | errorEvent
deriving DecidableEq, Repr

/-- The upstream HTTP exchange as the handler observes it: transport failure
before any response, or a response with status, body, and the subsequent
chunk stream (whose items are `Ok` byte chunks or transport errors). -/
inductive UpstreamExchange
  | noResponse (message : Str)
  | response (status : Nat) (body : Str) (chunks : List (Except Str Str))

/-- `reqwest::StatusCode::is_success`. -/
def statusIsSuccess (status : Nat) : Bool := 200 ≤ status && status < 300

/-- The formatted upstream-error message of main.rs line 1782. -/
def upstreamErrorMsg (status : Nat) (body : Str) : Str :=
  "Erreur OpenAI: HTTP ".data ++ (Nat.repr status).data ++ " - ".data ++ body

/-- The effectful skeleton of `request_openai_completion` (main.rs lines
1702-1787): fail with 500 on a missing key, fail with 502 carrying the
upstream status and body on a non-success response — checked before any
data line is read — and otherwise hand the chunk stream to the frame
decoder. (`request_ai_completion` dispatches on the model choice; the Groq
variant at lines 1690-1697 has the identical status-check skeleton.) -/
def request_openai_completion_model (apiKey : Option Str)
    (exchange : UpstreamExchange) :
    Except (Nat × Str) (List (Except Str Str)) :=
  match apiKey with
  | none => .error (500, "OPENAI_API_KEY manquant dans .env".data)
  | some _ =>
    match exchange with
    | .noResponse m => .error (500, m)
    | .response status body chunks =>
      if statusIsSuccess status then .ok chunks
      else .error (502, upstreamErrorMsg status body)

/-- `preview_chat_title` (main.rs lines 1874-1892): the first 60 characters,
with an ellipsis appended when the message is longer. -/
def preview_chat_title (message : Str) : Str :=
  if 60 < message.length then message.take 60 ++ ['…'] else message

/-- The store-effect prefix of `append_chat_message_stream` (main.rs lines
803-965), up to handing the live stream to the spawned task: validate the
trimmed content, look up the session, insert the user message row, insert
its attachment rows (rows with an empty effective storage key are skipped),
call upstream (line 883), insert the empty assistant placeholder row, update
the session title (first exchange: generated title or the preview fallback)
or its timestamp, and call upstream again for the live stream (line 965).
Any upstream error propagates, leaving the store operations performed so
far in place. -/
def append_stream_setup (content : Str) (attachmentKeys : List Str)
    (sessionMeta : Option Bool) (conversationLen : Nat)
    (apiKey : Option Str) (firstExchange secondExchange : UpstreamExchange)
    (titleResult : Except (Nat × Str) Str) (newMessageId : Nat) :
    List StoreOp × Except (Nat × Str) (List (Except Str Str) × Nat) :=
  let trimmed := rustTrim content
  if trimmed = [] then
    ([], .error (400, "Le message ne peut pas être vide.".data))
  else
    match sessionMeta with
    | none => ([], .error (404, "Discussion introuvable.".data))
    | some archived =>
      if archived then
        ([], .error
          (400, "Impossible de poster dans une discussion archivée.".data))
      else
        let ops₀ := StoreOp.insertMessage "user".data trimmed ::
          (attachmentKeys.filter (fun k => !k.isEmpty)).map
            StoreOp.insertAttachment
        match request_openai_completion_model apiKey firstExchange with
        | .error e => (ops₀, .error e)
        | .ok _ =>
          let ops₁ := ops₀ ++ [StoreOp.insertMessage "assistant".data []]
          let titleOp :=
            if conversationLen = 1 then
              match titleResult with
              | .ok title => StoreOp.updateSessionTitle title
              | .error _ =>
                  StoreOp.updateSessionTitle (preview_chat_title trimmed)
            else StoreOp.touchSession
          let ops₂ := ops₁ ++ [titleOp]
          match request_openai_completion_model apiKey secondExchange with
          | .error e => (ops₂, .error e)
          | .ok chunks => (ops₂, .ok (chunks, newMessageId))

/-- The `Ok` chunks of the upstream stream; `Err` items are logged and
skipped by both spawned tasks (main.rs lines 1111-1113, 1403-1405). -/
def okDeltas (chunks : List (Except Str Str)) : List Str :=
  chunks.filterMap fun c =>
    match c with
    | .ok s => some s
    | .error _ => none

def spanEvent : Span → OutEvent
  | ⟨.answer, t⟩ => .token t
  | ⟨.reasoning, t⟩ => .reasoning t

/-- The spawned task of `append_chat_message_stream` (main.rs lines
967-1183). Every `tx.send` in it is best-effort (`let _ = …`), so its
control flow — classifying the deltas, flushing, writing `full_answer` to
the message row, fetching the final session and emitting `final` on success
or `error` on failure — is a function of the upstream chunks alone; the
returned events are the attempted sends in order, and a disconnected client
only makes those sends fail silently. -/
def appendTask (chunks : List (Except Str Str)) (messageId : Nat)
    (fetchFinalOk : Bool) : List OutEvent × List StoreOp :=
  let spans := classify (okDeltas chunks)
  (spans.map spanEvent
     ++ [if fetchFinalOk then OutEvent.finalEvent else OutEvent.errorEvent],
   [StoreOp.updateMessageContent messageId (answerText spans)])

/-- The full outbound event sequence of one streamed append invocation: the
initial `session` snapshot event (sent before the task is spawned, main.rs
lines 949-960) followed by the task's events. -/
def appendStreamEvents (chunks : List (Except Str Str)) (messageId : Nat)
    (fetchFinalOk : Bool) : List OutEvent :=
  OutEvent.session messageId :: (appendTask chunks messageId fetchFinalOk).1

/-- The chunk loop of `regenerate_message_stream`'s spawned task (main.rs
lines 1382-1407): accumulate each `Ok` chunk into `full_answer`, then send
it as a `token` event — and `return` out of the task when the send fails
(line 1399-1401). `alive n` tells whether the `n`-th send attempt succeeds
(the handler's initial `session` event is attempt 0). Returns the
accumulated answer, whether the task aborted, and the next attempt index. -/
def regenLoop (alive : Nat → Bool) :
    Nat → Str → List (Except Str Str) → Str × Bool × Nat
  | n, acc, [] => (acc, false, n)
  | n, acc, .error _ :: rest => regenLoop alive n acc rest
  | n, acc, .ok c :: rest =>
      if alive n then regenLoop alive (n + 1) (acc ++ c) rest
      else (acc ++ c, true, n + 1)

/-- The store writes of `regenerate_message_stream`'s spawned task (main.rs
lines 1381-1455): nothing when the loop aborted on a failed send, otherwise
the `UPDATE chat_messages SET content = full_answer` (the terminal
`final`/`error` send that follows is best-effort and writes nothing). -/
def regenTaskStoreOps (alive : Nat → Bool) (chunks : List (Except Str Str))
    (messageId : Nat) : List StoreOp :=
  let out := regenLoop alive 1 [] chunks
  if out.2.1 then []
  else [StoreOp.updateMessageContent messageId out.1]

def isTerminalEvent : OutEvent → Bool
  | .finalEvent => true
  | .errorEvent => true
  | _ => false

def isSessionEvent : OutEvent → Bool
  | .session _ => true
  | _ => false

deriving instance DecidableEq for Except

def isContentEvent : OutEvent → Bool
  | .token _ => true
  | .reasoning _ => true
  | _ => false

/-! ## Claim theorems for the endpoints -/

/-- C4 (counterexample): when the upstream answers HTTP 429 before any data
line, the handler does fail with the upstream error carrying status and
body — but the user message row was already inserted before the upstream
call, so the store trace is not empty as the claim requires. -/
theorem C4_upstream_429_counterexample :
    (append_stream_setup "Hello".data [] (some false) 1 (some [])
        (.response 429 "Too Many Requests".data []) (.response 200 [] [])
        (.ok "t".data) 7).1 =
      [StoreOp.insertMessage "user".data "Hello".data] ∧
    (append_stream_setup "Hello".data [] (some false) 1 (some [])
        (.response 429 "Too Many Requests".data []) (.response 200 [] [])
        (.ok "t".data) 7).1 ≠ [] ∧
    (append_stream_setup "Hello".data [] (some false) 1 (some [])
        (.response 429 "Too Many Requests".data []) (.response 200 [] [])
        (.ok "t".data) 7).2 =
      .error (502, upstreamErrorMsg 429 "Too Many Requests".data) := by
  refine ⟨by decide, by decide, by decide⟩

/-- C4 (amended): a non-success upstream status before any data line makes
the streamed append handler fail with the upstream error (HTTP 502 carrying
the upstream status and body); no assistant row is inserted and no message
or session row is updated — but the user message row (with its attachment
rows) inserted before the upstream call remains. -/
theorem C4_upstream_failure_partial_state :
    ∀ (content : Str) (attachmentKeys : List Str) (convLen : Nat) (key : Str)
      (status : Nat) (body : Str) (chunks : List (Except Str Str))
      (second : UpstreamExchange) (titleResult : Except (Nat × Str) Str)
      (msgId : Nat),
      rustTrim content ≠ [] →
      statusIsSuccess status = false →
      append_stream_setup content attachmentKeys (some false) convLen
          (some key) (.response status body chunks) second titleResult msgId =
        (StoreOp.insertMessage "user".data (rustTrim content) ::
          (attachmentKeys.filter (fun k => !k.isEmpty)).map
            StoreOp.insertAttachment,
         .error (502, upstreamErrorMsg status body)) := by
  intro content attachmentKeys convLen key status body chunks second
    titleResult msgId htrim hstatus
  unfold append_stream_setup request_openai_completion_model
  rw [if_neg htrim]
  dsimp only
  rw [if_neg (by simp), hstatus]
  rfl

/-- Witness for C4 (amended) at the 429 scenario. -/
theorem C4_upstream_failure_witness :
    rustTrim "Hello".data ≠ [] ∧
    statusIsSuccess 429 = false ∧
    append_stream_setup "Hello".data ["k".data] (some false) 1 (some [])
        (.response 429 "Too Many Requests".data []) (.response 200 [] [])
        (.ok "t".data) 7 =
      (StoreOp.insertMessage "user".data (rustTrim "Hello".data) ::
        ((["k".data] : List Str).filter (fun k => !k.isEmpty)).map
          StoreOp.insertAttachment,
       .error (502, upstreamErrorMsg 429 "Too Many Requests".data)) :=
  ⟨by decide, by decide,
   C4_upstream_failure_partial_state "Hello".data ["k".data] 1 [] 429
     "Too Many Requests".data [] (.response 200 [] []) (.ok "t".data) 7
     (by decide) (by decide)⟩

/-- C5 (counterexample): in `regenerate_message_stream`'s task a failed
token send makes the task `return` before the `UPDATE`, so after a client
disconnect (here: the session event and two token sends succeed, the third
fails — the spec's Scenario E timing) the store receives nothing at all. -/
theorem C5_regenerate_disconnect_counterexample :
    regenTaskStoreOps (fun n => decide (n < 3))
      [.ok "a".data, .ok "b".data, .ok "c".data] 7 = [] ∧
    (regenLoop (fun n => decide (n < 3)) 1 []
      [.ok "a".data, .ok "b".data, .ok "c".data]).1 = "abc".data := by
  refine ⟨by decide, by decide⟩

/-- C5 (amended): the append task's persistence is unconditional — its store
write is a function of the upstream chunks alone, because every send is
best-effort, so a disconnected client only loses the pushes; the regenerate
task persists the full concatenated answer only when no token send fails,
and a single failed send aborts it before any write. -/
theorem C5_disconnect_persistence :
    (∀ (chunks : List (Except Str Str)) (msgId : Nat) (fetchOk : Bool),
      (appendTask chunks msgId fetchOk).2 =
        [StoreOp.updateMessageContent msgId
          (persistedAnswer (okDeltas chunks))]) ∧
    (∀ (alive : Nat → Bool) (chunks : List (Except Str Str)) (msgId : Nat),
      (regenLoop alive 1 [] chunks).2.1 = false →
      regenTaskStoreOps alive chunks msgId =
        [StoreOp.updateMessageContent msgId (okDeltas chunks).flatten]) := by
  constructor
  · intro chunks msgId fetchOk
    rfl
  · have hloop : ∀ (alive : Nat → Bool) (chunks : List (Except Str Str))
        (n : Nat) (acc : Str),
        (regenLoop alive n acc chunks).2.1 = false →
        (regenLoop alive n acc chunks).1 = acc ++ (okDeltas chunks).flatten := by
      intro alive chunks
      induction chunks with
      | nil =>
        intro n acc _
        rw [regenLoop]
        show acc = acc ++ ([] : List Str).flatten
        rw [List.flatten_nil, List.append_nil]
      | cons c rest ih =>
        intro n acc h
        cases c with
        | error e =>
          rw [regenLoop] at h ⊢
          rw [ih n acc h]
          rfl
        | ok s =>
          rw [regenLoop] at h ⊢
          by_cases ha : alive n = true
          · rw [if_pos ha] at h ⊢
            rw [ih (n + 1) (acc ++ s) h]
            show acc ++ s ++ (okDeltas rest).flatten =
              acc ++ (okDeltas (.ok s :: rest)).flatten
            rw [show okDeltas (.ok s :: rest) = s :: okDeltas rest from rfl,
              List.flatten_cons, List.append_assoc]
          · rw [if_neg ha] at h
            exact absurd h (by simp)
    intro alive chunks msgId h
    unfold regenTaskStoreOps
    dsimp only
    rw [h, if_neg (by simp), hloop alive chunks 1 [] h, List.nil_append]

/-- Witness for C5 (amended), second part, on a connected client. -/
theorem C5_disconnect_persistence_witness :
    (regenLoop (fun _ => true) 1 [] [.ok "a".data]).2.1 = false ∧
    regenTaskStoreOps (fun _ => true) [.ok "a".data] 7 =
      [StoreOp.updateMessageContent 7
        (okDeltas [.ok "a".data]).flatten] :=
  ⟨by decide,
   C5_disconnect_persistence.2 (fun _ => true) [.ok "a".data] 7 (by decide)⟩

/-- C6: every streamed append invocation's attempted event sequence is
exactly one initial `session` event, then zero or more `token`/`reasoning`
events, then exactly one terminal event — `final` when the final session
fetch succeeds, `error` when it fails — with nothing after it and never
both terminals. -/
theorem C6_event_protocol :
    ∀ (chunks : List (Except Str Str)) (msgId : Nat) (fetchOk : Bool),
      appendStreamEvents chunks msgId fetchOk =
        OutEvent.session msgId ::
          ((classify (okDeltas chunks)).map spanEvent
            ++ [if fetchOk then OutEvent.finalEvent
                else OutEvent.errorEvent]) ∧
      ((classify (okDeltas chunks)).map spanEvent).all isContentEvent = true ∧
      (appendStreamEvents chunks msgId fetchOk).countP isSessionEvent = 1 ∧
      (appendStreamEvents chunks msgId fetchOk).countP isTerminalEvent = 1 := by
  intro chunks msgId fetchOk
  have hmid : ∀ e ∈ (classify (okDeltas chunks)).map spanEvent,
      isContentEvent e = true := by
    intro e he
    rw [List.mem_map] at he
    obtain ⟨sp, _, rfl⟩ := he
    cases hsp : sp.kind with
    | answer =>
      rw [show spanEvent sp = .token sp.text by
        unfold spanEvent
        rw [show sp = ⟨sp.kind, sp.text⟩ from rfl, hsp]]
      rfl
    | reasoning =>
      rw [show spanEvent sp = .reasoning sp.text by
        unfold spanEvent
        rw [show sp = ⟨sp.kind, sp.text⟩ from rfl, hsp]]
      rfl
  have hT : (appendTask chunks msgId fetchOk).1 =
      (classify (okDeltas chunks)).map spanEvent
        ++ [if fetchOk then OutEvent.finalEvent else OutEvent.errorEvent] :=
    rfl
  refine ⟨rfl, List.all_eq_true.mpr hmid, ?_, ?_⟩
  · show List.countP _ (OutEvent.session msgId ::
      (appendTask chunks msgId fetchOk).1) = 1
    rw [List.countP_cons, hT]
    rw [List.countP_append, List.countP_eq_zero.mpr (by
      intro e he
      have := hmid e he
      cases e <;> simp_all [isContentEvent, isSessionEvent])]
    cases fetchOk <;> simp [isSessionEvent]
  · show List.countP _ (OutEvent.session msgId ::
      (appendTask chunks msgId fetchOk).1) = 1
    rw [List.countP_cons, hT]
    rw [List.countP_append, List.countP_eq_zero.mpr (by
      intro e he
      have := hmid e he
      cases e <;> simp_all [isContentEvent, isTerminalEvent])]
    cases fetchOk <;> simp [isTerminalEvent, isSessionEvent]

end CarlGPT
